import Mathlib

/-!
The file hashtable.c: address table with per-address transport-record lists

A shallow embedding of `src/hashtable.c`.

Representation.  The C program builds two levels of singly linked, singly owned
chains: a bucket chain of `ip_lookup_t` nodes linked through `next`, and for each
such node a record list of `tcp_node_t` / `udp_node_t` nodes linked through their
`next`, hanging off `value`.  A chain is embedded as the `List` of its nodes in link
order, the null pointer being the empty list; a node's `next` field is therefore the
tail of the list at that node.  All other fields are kept as they are stored.

* The first byte of a record (`ip_proto`) is what the walks read through
  `*(uint8_t *)p`; it is a stored tag that the code overwrites, and the protocol a
  record is handled under is the tag the walk carries when it reaches the record.
* `tcp_node_t` and `udp_node_t` have the same layout, and the two `case` arms of each
  `switch` are the same code on that layout.
* Machine integers are natural numbers; the hash mixes are reduced modulo `2 ^ 32`.
  The counters `idx` of the deletion walks are only compared with zero and are
  assumed not to overflow (chains shorter than `2 ^ 31` nodes).
* A record handed to `ip_ht_set` is one node whose own `next` is null.
* A call that would dereference a null record pointer, or that would free a node which
  is still linked, has result `none`.
* The functions of the file take the identifier of a new entry and the contents of the
  block `malloc` returns as an argument (`fresh_t`).  The identifier pools of `util.h`
  are not part of the sources; where a statement is about them they are modelled from
  the specification, and `state_set`, `state_del`, `state_del_list` are the functions
  on the state made of pools and table.
-/

namespace Hashtable

/-- The number of buckets, `#define TABLE_SIZE 128`. -/
def TABLE_SIZE : Nat := 128

/-- A transport record, `tcp_node_t`: stored tag, identifier and port.  The `next`
link is the tail of the list the record stands in. -/
structure tcp_node_t where
  ip_proto : Nat
  id : Nat
  port : Nat
deriving DecidableEq

/-- The struct `udp_node_t` has the layout of `tcp_node_t`. -/
abbrev udp_node_t := tcp_node_t

/-- An address entry, `ip_lookup_t`.  `value` is the record list hanging off the
entry (null = `[]`); the `next` link is the tail of the bucket chain at the entry. -/
structure ip_lookup_t where
  ip_proto : Nat
  id : Nat
  key : Nat
  value : List tcp_node_t
deriving DecidableEq

/-- The table, `ip_ht_t`: an array of `TABLE_SIZE` bucket heads. -/
structure ip_ht_t where
  entries : Fin TABLE_SIZE → List ip_lookup_t

/-- What `ip_ht_insert` takes from outside the file: the contents of the block that
`malloc` returns (its `ip_proto` and `value` fields keep these contents when no record
is supplied, the code does not assign them) and the identifier that
`util_id_allocate` of `util.h` returns. -/
structure fresh_t where
  block : ip_lookup_t
  id : Nat

/-- The complement `~x` of a 32-bit unsigned value. -/
def not32 (x : Nat) : Nat := 2 ^ 32 - 1 - x % 2 ^ 32

/-- The complement `~x` of a 64-bit unsigned value. -/
def not64 (x : Nat) : Nat := 2 ^ 64 - 1 - x % 2 ^ 64

/-- The 32-bit mix shared, line for line, by `byte_hash`, `sort_hash` and
`long_hash`. -/
def mix32 (key0 : Nat) : Nat :=
  let key := key0
  let key := (key + not32 (key <<< 15)) % 2 ^ 32
  let key := key ^^^ (key >>> 10)
  let key := (key + (key <<< 3) % 2 ^ 32) % 2 ^ 32
  let key := key ^^^ (key >>> 6)
  let key := (key + not32 (key <<< 11)) % 2 ^ 32
  let key := key ^^^ (key >>> 16)
  key % TABLE_SIZE

/-- The function `byte_hash`. -/
def byte_hash (key8 : Nat) : Nat := mix32 key8

/-- The function `sort_hash`. -/
def sort_hash (key16 : Nat) : Nat := mix32 key16

/-- The function `long_hash`. -/
def long_hash (key32 : Nat) : Nat := mix32 key32

/-- The function `long_long_hash`. -/
def long_long_hash (key64 : Nat) : Nat :=
  let key := key64
  let key := (key + not64 (key <<< 32)) % 2 ^ 64
  let key := key ^^^ (key >>> 22)
  let key := (key + not64 (key <<< 13)) % 2 ^ 64
  let key := key ^^^ (key >>> 8)
  let key := (key + (key <<< 3) % 2 ^ 64) % 2 ^ 64
  let key := key ^^^ (key >>> 15)
  let key := (key + not64 (key <<< 27)) % 2 ^ 64
  let key := key ^^^ (key >>> 31)
  key % TABLE_SIZE

/-- The bucket index `long_hash(key)` as an index into `entries`. -/
def slot (key : Nat) : Fin TABLE_SIZE :=
  ⟨long_hash key, Nat.mod_lt _ (by decide)⟩

/-- The assignment `hash_table->entries[hash] = chain`. -/
def store (hash_table : ip_ht_t) (hash : Fin TABLE_SIZE) (chain : List ip_lookup_t) :
    ip_ht_t :=
  { entries := fun i => if i = hash then chain else hash_table.entries i }

/-- The function `ip_ht_insert`: a new entry for `key`, its `next` null.  With a
record, `value` points to it and `ip_proto` is the record's first byte; without one,
both fields keep what the allocated block held. -/
def ip_ht_insert (fresh : fresh_t) (key : Nat) (value : Option tcp_node_t) : ip_lookup_t :=
  match value with
  | some v => { ip_proto := v.ip_proto, id := fresh.id % 256, key := key, value := [v] }
  | none =>
    { ip_proto := fresh.block.ip_proto, id := fresh.id % 256, key := key,
      value := fresh.block.value }

/-- The function `ip_ht_create`: every bucket head null. -/
def ip_ht_create : ip_ht_t := { entries := fun _ => [] }

/-- The inner loop of `ip_ht_set` (lines 149-173) on the list at `it_value`, reached
with the tag `ip_proto`.  Under tag 6 or 17: at the node whose `next` is null the node's
first byte becomes the record's first byte and the record is linked; otherwise the walk
goes on under the node's first byte.  Under any other tag the walk returns.  The
result is the list at `it_value` afterwards. -/
def ip_ht_set_list (value : Option tcp_node_t) :
    Nat → List tcp_node_t → Option (List tcp_node_t)
  | _, [] => some []
  | ip_proto, it_value :: next =>
    if ip_proto = 6 ∨ ip_proto = 17 then
      match next with
      | [] =>
        match value with
        | some v => some [{ it_value with ip_proto := v.ip_proto }, v]
        | none => none
      | n :: rest => (ip_ht_set_list value it_value.ip_proto (n :: rest)).map (it_value :: ·)
    else some (it_value :: next)

/-- The outer loop of `ip_ht_set` (lines 133-182) on the chain at `entry`; the result
is that chain afterwards.  At the end of the chain the new entry is linked to the
last node. -/
def ip_ht_set_chain (fresh : fresh_t) (key : Nat) (value : Option tcp_node_t) :
    List ip_lookup_t → Option (List ip_lookup_t)
  | [] => some [ip_ht_insert fresh key value]
  | entry :: next =>
    if entry.key = key then
      match entry.value with
      | [] =>
        match value with
        | some v =>
          if v.ip_proto = 6 ∨ v.ip_proto = 17 then
            some ({ entry with ip_proto := v.ip_proto, value := [v] } :: next)
          else some ({ entry with ip_proto := v.ip_proto } :: next)
        | none => some (entry :: next)
      | n :: rest =>
        (ip_ht_set_list value entry.ip_proto (n :: rest)).map
          (fun l => { entry with value := l } :: next)
    else (ip_ht_set_chain fresh key value next).map (entry :: ·)

/-- The function `ip_ht_set`. -/
def ip_ht_set (hash_table : ip_ht_t) (key : Nat) (value : Option tcp_node_t)
    (fresh : fresh_t) : Option ip_ht_t :=
  let hash := slot key
  match hash_table.entries hash with
  | [] => some (store hash_table hash [ip_ht_insert fresh key value])
  | entry :: next =>
    (ip_ht_set_chain fresh key value (entry :: next)).map (store hash_table hash)

/-- The loop of `ip_ht_get` on the chain at `entry`. -/
def ip_ht_get_chain (key : Nat) : List ip_lookup_t → Option ip_lookup_t
  | [] => none
  | entry :: next => if entry.key = key then some entry else ip_ht_get_chain key next

/-- The function `ip_ht_get`. -/
def ip_ht_get (hash_table : ip_ht_t) (key : Nat) : Option ip_lookup_t :=
  let hash := slot key
  match hash_table.entries hash with
  | [] => none
  | entry :: next => ip_ht_get_chain key (entry :: next)

/-- The loop of `ip_ht_del` (lines 218-277) on the chain at `entry`, reached with
counter `idx`.  The result is what the link that led to `entry` (the bucket head when
`idx` is zero, `prev->next` otherwise) leads to afterwards.  The four tests follow the
code; the statement after them frees the entry without unlinking it. -/
def ip_ht_del_chain (key : Nat) : Nat → List ip_lookup_t → Option (List ip_lookup_t)
  | _, [] => some []
  | idx, entry :: next =>
    if entry.key = key then
      if next = [] ∧ idx = 0 then
        if entry.value = [] then some [] else some (entry :: next)
      else if next ≠ [] ∧ idx = 0 then
        if entry.value = [] then some next else some (entry :: next)
      else if next = [] ∧ idx ≠ 0 then
        if entry.value = [] then some [] else some (entry :: next)
      else if next ≠ [] ∧ idx ≠ 0 then
        if entry.value = [] then some next else some (entry :: next)
      else none
    else (ip_ht_del_chain key (idx + 1) next).map (entry :: ·)

/-- The function `ip_ht_del`. -/
def ip_ht_del (hash_table : ip_ht_t) (key : Nat) : Option ip_ht_t :=
  let hash := slot key
  match hash_table.entries hash with
  | [] => some hash_table
  | entry :: next => (ip_ht_del_chain key 0 (entry :: next)).map (store hash_table hash)

/-- The loop of `ip_ht_del_list` (lines 289-370) from the second node on (`idx` not
zero): `prev` is the node before `it_value`, `ip_proto` the tag carried.  The result
is the list at `prev` afterwards. -/
def ip_ht_del_list_tail (proto port : Nat) :
    tcp_node_t → Nat → List tcp_node_t → List tcp_node_t
  | prev, _, [] => [prev]
  | prev, ip_proto, it_value :: next =>
    if ip_proto = 6 ∨ ip_proto = 17 then
      if it_value.port = port ∧ ip_proto = proto then
        match next with
        | [] => [prev]
        | n :: rest => { prev with ip_proto := it_value.ip_proto } :: n :: rest
      else prev :: ip_ht_del_list_tail proto port it_value it_value.ip_proto next
    else prev :: it_value :: next

/-- The body of `ip_ht_del_list` for a non-null `entry`: the first node (`idx` zero) is
handled against the entry's own fields, later nodes by `ip_ht_del_list_tail`.  The
result is the entry afterwards. -/
def ip_ht_del_list_entry (e : ip_lookup_t) (proto port : Nat) : ip_lookup_t :=
  match e.value with
  | [] => e
  | it_value :: next =>
    if e.ip_proto = 6 ∨ e.ip_proto = 17 then
      if it_value.port = port ∧ e.ip_proto = proto then
        match next with
        | [] => { e with value := [], ip_proto := 0 }
        | n :: rest => { e with value := n :: rest, ip_proto := it_value.ip_proto }
      else
        { e with value := ip_ht_del_list_tail proto port it_value it_value.ip_proto next }
    else e

/-- The function `ip_ht_del_list`; the result is the entry behind the pointer
afterwards (`none` for the null pointer, on which the function returns at once). -/
def ip_ht_del_list (entry : Option ip_lookup_t) (proto port : Nat) : Option ip_lookup_t :=
  match entry with
  | none => none
  | some e => some (ip_ht_del_list_entry e proto port)

/-- The chain after `ip_ht_del_list(ip_ht_get(hash_table, key), proto, port)`: the
entry `ip_ht_get` points to is the first one of the chain with `key`, and the call
changes it in place. -/
def ip_ht_del_list_chain (key proto port : Nat) : List ip_lookup_t → List ip_lookup_t
  | [] => []
  | entry :: next =>
    if entry.key = key then ip_ht_del_list_entry entry proto port :: next
    else entry :: ip_ht_del_list_chain key proto port next

/-- The table after `ip_ht_del_list(ip_ht_get(hash_table, key), proto, port)`, the
form in which `main` calls `ip_ht_del_list`. -/
def ip_ht_del_list_at (hash_table : ip_ht_t) (key proto port : Nat) : ip_ht_t :=
  store hash_table (slot key)
    (ip_ht_del_list_chain key proto port (hash_table.entries (slot key)))

/-- The inner loop of `ip_ht_dump` (lines 392-408): the records printed for the list at
`it_value` reached with tag `ip_proto`, each as (protocol printed, id, port); the walk
stops at an unknown tag. -/
def ip_ht_dump_list : Nat → List tcp_node_t → List (Nat × Nat × Nat)
  | _, [] => []
  | ip_proto, it_value :: next =>
    if ip_proto = 6 ∨ ip_proto = 17 then
      (ip_proto, it_value.id, it_value.port) :: ip_ht_dump_list it_value.ip_proto next
    else []

/-- The records `ip_ht_dump` prints for one entry. -/
def ip_ht_dump_entry (entry : ip_lookup_t) : List (Nat × Nat × Nat) :=
  ip_ht_dump_list entry.ip_proto entry.value

/-- The tags a walk carries over the list at `it_value`, reached with `ip_proto`, are
all 6 or 17: the entry's tag for the first record, each node's first byte for the
record after it.  The first byte of the last node is not read as a tag. -/
def well_tagged : Nat → List tcp_node_t → Prop
  | _, [] => True
  | ip_proto, it_value :: next =>
    (ip_proto = 6 ∨ ip_proto = 17) ∧ well_tagged it_value.ip_proto next

/-- Deciding `well_tagged` follows the walk. -/
instance well_tagged.dec : (ip_proto : Nat) → (l : List tcp_node_t) →
    Decidable (well_tagged ip_proto l)
  | _, [] => isTrue trivial
  | _, it_value :: next =>
    @instDecidableAnd _ _ _ (well_tagged.dec it_value.ip_proto next)

/-- A printed record `x` is one for protocol `proto` and port `port`. -/
def is_record (proto port : Nat) (x : Nat × Nat × Nat) : Bool :=
  decide (x.1 = proto ∧ x.2.2 = port)

/-- The keys of a chain, in chain order. -/
def chain_keys (chain : List ip_lookup_t) : List Nat := chain.map (fun e => e.key)

/-- The invariant of the chain of bucket `i`: pairwise distinct keys, each hashing
to `i`. -/
def chain_ok (i : Fin TABLE_SIZE) (chain : List ip_lookup_t) : Prop :=
  (chain_keys chain).Nodup ∧ ∀ e ∈ chain, long_hash e.key = i.val

/-- The bucket invariant: every bucket chain has pairwise distinct keys and holds only
entries whose key hashes to that bucket. -/
def buckets_ok (hash_table : ip_ht_t) : Prop :=
  ∀ i : Fin TABLE_SIZE, chain_ok i (hash_table.entries i)

/-- The chain invariant can be checked by evaluation. -/
instance chain_ok.dec (i : Fin TABLE_SIZE) (chain : List ip_lookup_t) :
    Decidable (chain_ok i chain) := by
  unfold chain_ok
  infer_instance

/-- The bucket invariant can be checked by evaluation, bucket by bucket. -/
instance buckets_ok.dec (hash_table : ip_ht_t) : Decidable (buckets_ok hash_table) := by
  unfold buckets_ok
  infer_instance

/-- One call on the table made by a client such as `main`. -/
inductive call_t where
  | set (key : Nat) (value : Option tcp_node_t) (fresh : fresh_t)
  | del (key : Nat)
  | del_list (key proto port : Nat)

/-- The table after one call, `none` when the call has no defined result. -/
def call_t.run (hash_table : ip_ht_t) : call_t → Option ip_ht_t
  | .set key value fresh => ip_ht_set hash_table key value fresh
  | .del key => ip_ht_del hash_table key
  | .del_list key proto port => some (ip_ht_del_list_at hash_table key proto port)

/-- The table after a sequence of calls, first call first. -/
def run_calls : List call_t → ip_ht_t → Option ip_ht_t
  | [], hash_table => some hash_table
  | c :: cs, hash_table =>
    match c.run hash_table with
    | some t => run_calls cs t
    | none => none

/-! ## Sample data

Keys 5, 168, 293 and 302 all hash to bucket 104. -/

/-- A sample allocation result: a block holding stale data, and identifier 3. -/
def sample_fresh : fresh_t :=
  { block := { ip_proto := 9, id := 0, key := 0, value := [⟨1, 2, 3⟩] }, id := 3 }

/-- An entry with three records: UDP 53, TCP 80, TCP 443 (each node stores the tag of
the record after it). -/
def sample_entry : ip_lookup_t :=
  { ip_proto := 17, id := 0, key := 168, value := [⟨6, 0, 53⟩, ⟨6, 0, 80⟩, ⟨6, 1, 443⟩] }

/-- A chain of three entries: one with records, one without, one with a record. -/
def sample_chain : List ip_lookup_t :=
  [sample_entry, ⟨0, 1, 5, []⟩, ⟨6, 2, 293, [⟨6, 2, 22⟩]⟩]

/-- A table whose bucket 104 holds `sample_chain`. -/
def sample_table : ip_ht_t := store ip_ht_create (slot 5) sample_chain

/-- Two calls that attach the same protocol and port twice to address 5, under
different record ids. -/
def twice_calls : List call_t :=
  [.set 5 (some ⟨6, 1, 80⟩) sample_fresh, .set 5 (some ⟨6, 2, 80⟩) sample_fresh]

/-- The entry for address 5 after `twice_calls`. -/
def twice_entry : ip_lookup_t :=
  { ip_proto := 6, id := 3, key := 5, value := [⟨6, 1, 80⟩, ⟨6, 2, 80⟩] }

/-- A mixed sequence of calls on three colliding addresses. -/
def sample_calls : List call_t :=
  [.set 5 (some ⟨17, 0, 53⟩) sample_fresh, .set 302 none sample_fresh,
   .set 5 (some ⟨6, 0, 80⟩) sample_fresh, .set 293 (some ⟨6, 1, 22⟩) sample_fresh,
   .del_list 5 17 53, .del 302, .del_list 5 6 80, .del 5, .del 168]

/-- The table `sample_calls` leads to from `sample_table`, bucket 104 being the only
bucket in use. -/
def sample_result : ip_ht_t := (run_calls sample_calls sample_table).getD ip_ht_create

/-- The address the driver `main` starts from. -/
def driver_ip : Nat := 0x46827024

/-- The UDP record of the driver's first iteration: port `0x77`. -/
def driver_udp (id : Nat) : tcp_node_t := { ip_proto := 17, id := id, port := 0x77 }

/-- The TCP record of the driver's first iteration: port `0x77`. -/
def driver_tcp (id : Nat) : tcp_node_t := { ip_proto := 6, id := id, port := 0x77 }

/-! ## Records attached by a sequence of calls -/

/-- A call that attaches a record gives one whose first byte is 6 or 17; `ip_ht_set`
without a record does not qualify, `ip_ht_del` and `ip_ht_del_list` always do. -/
def call_t.recognized : call_t → Prop
  | .set _ (some r) _ => r.ip_proto = 6 ∨ r.ip_proto = 17
  | .set _ none _ => False
  | .del _ => True
  | .del_list _ _ _ => True

/-- Whether a call qualifies can be checked by evaluation. -/
instance call_t.recognized.dec : (c : call_t) → Decidable c.recognized
  | .set _ (some r) _ => inferInstanceAs (Decidable (r.ip_proto = 6 ∨ r.ip_proto = 17))
  | .set _ none _ => isFalse (fun h => h)
  | .del _ => isTrue trivial
  | .del_list _ _ _ => isTrue trivial

/-- The bookkeeping of what the calls attach, one call on: `attached` gives for each
address its records as (protocol, id, port), the protocol being the first byte of the
record when it was handed to `ip_ht_set`, in the order of the calls.  `ip_ht_set` adds
its record at the end for its address, `ip_ht_del_list` takes out the first record
with its protocol and port, `ip_ht_del` changes no record. -/
def attached_step (attached : Nat → List (Nat × Nat × Nat)) (c : call_t) (k : Nat) :
    List (Nat × Nat × Nat) :=
  match c with
  | .set key (some r) _ =>
    if k = key then attached k ++ [(r.ip_proto, r.id, r.port)] else attached k
  | .set _ none _ => attached k
  | .del _ => attached k
  | .del_list key proto port =>
    if k = key then (attached k).eraseP (is_record proto port) else attached k

/-- The bookkeeping after a sequence of calls, first call first. -/
def attached_after : List call_t → (Nat → List (Nat × Nat × Nat)) →
    Nat → List (Nat × Nat × Nat)
  | [], attached => attached
  | c :: cs, attached => attached_after cs (attached_step attached c)

/-- The table agrees with the bookkeeping: the bucket invariant holds, the entry found
for an address has a well tagged list which the dump walk prints as the records kept
for the address, and an address without entry has no records kept. -/
def tracks (hash_table : ip_ht_t) (attached : Nat → List (Nat × Nat × Nat)) : Prop :=
  buckets_ok hash_table ∧
    ∀ k, (∀ e, ip_ht_get hash_table k = some e →
        well_tagged e.ip_proto e.value ∧ ip_ht_dump_entry e = attached k) ∧
      (ip_ht_get hash_table k = none → attached k = [])

/-! ## Seeding and draining, as the driver does -/

/-- One seeding step: an address, the record attached to it, and what the allocator
hands out should the address be new. -/
structure seed_t where
  address : Nat
  record : tcp_node_t
  fresh : fresh_t

/-- The seeding calls: one `ip_ht_set` per step. -/
def seed_calls : List seed_t → List call_t
  | [] => []
  | x :: xs => .set x.address (some x.record) x.fresh :: seed_calls xs

/-- The draining calls: per step, `ip_ht_del_list(ip_ht_get(address), protocol, port)`
and then `ip_ht_del(address)`. -/
def drain_calls : List seed_t → List call_t
  | [] => []
  | x :: xs =>
    .del_list x.address x.record.ip_proto x.record.port :: .del x.address :: drain_calls xs

/-- The records of the seeding steps for address `k`, in order, as (protocol, id,
port). -/
def seeded (xs : List seed_t) (k : Nat) : List (Nat × Nat × Nat) :=
  (xs.filter (fun x => decide (x.address = k))).map
    (fun x => (x.record.ip_proto, x.record.id, x.record.port))

/-- The address of iteration `i` of the driver: it starts at `0x46827024` and advances
by `j % 2` after iteration `j`. -/
def driver_address (i : Nat) : Nat := driver_ip + i / 2

/-- The port of iteration `i` of the driver. -/
def driver_port (i : Nat) : Nat := 0x77 + (i % 15) * 55

/-- The two seeding steps of iteration `i` of the driver: the UDP record, then the TCP
record, with the ids a pool that starts empty hands out. -/
def driver_iteration (i : Nat) : List seed_t :=
  [{ address := driver_address i, record := ⟨17, i, driver_port i⟩,
     fresh := { block := ⟨0, 0, 0, []⟩, id := i / 2 } },
   { address := driver_address i, record := ⟨6, i, driver_port i⟩,
     fresh := { block := ⟨0, 0, 0, []⟩, id := i / 2 } }]

/-- The seeding steps of the 128 iterations of the driver. -/
def driver_seeds : List seed_t :=
  (List.range 128).foldr (fun i acc => driver_iteration i ++ acc) []

/-- The draining calls as `main` makes them: per iteration `ip_ht_del_list` for TCP,
then for UDP, then `ip_ht_del`. -/
def main_drain_calls : List call_t :=
  (List.range 128).foldr
    (fun i acc =>
      .del_list (driver_address i) 6 (driver_port i) ::
      .del_list (driver_address i) 17 (driver_port i) ::
      .del (driver_address i) :: acc) []

/-- A sample sequence of calls, every record with tag 6 or 17. -/
def tagged_calls : List call_t :=
  [.set 5 (some ⟨17, 0, 53⟩) sample_fresh, .set 168 (some ⟨6, 0, 80⟩) sample_fresh,
   .set 5 (some ⟨6, 1, 80⟩) sample_fresh, .set 5 (some ⟨17, 1, 123⟩) sample_fresh,
   .del_list 5 6 80, .del 5, .del_list 168 6 80, .set 168 (some ⟨17, 2, 53⟩) sample_fresh,
   .del_list 5 17 123, .del 293]

/-! ## The identifier pools -/

/-- Modelled from the spec: the pools behind `global_keystore` (`id_store_t` of `util.h`,
not part of the sources) are bitmaps, one per class (address, TCP, UDP); a set bit marks
an allocated identifier. -/
structure id_store_t where
  ip_bit_array : List Bool
  tcp_bit_array : List Bool
  udp_bit_array : List Bool
deriving DecidableEq

/-- Modelled from the spec: `util_id_allocate` of `util.h` (not part of the sources)
returns the smallest identifier not marked in the pool and marks it; it fails, here
`none`, when every identifier of the pool is marked. -/
def util_id_allocate : List Bool → Option (Nat × List Bool)
  | [] => none
  | false :: bits => some (0, true :: bits)
  | true :: bits => (util_id_allocate bits).map (fun r => (r.1 + 1, true :: r.2))

/-- The program state: the pools of `global_keystore` and the table. -/
structure state_t where
  global_keystore : id_store_t
  hash_table : ip_ht_t

/-- The function `ip_ht_set` on the program state.  `ip_ht_insert` is reached exactly
when the key has no entry, and only then an identifier is taken from the address pool
through `util_id_allocate`; when the pool has none left the call has no defined
result.  `block` is the contents of the block `malloc` returns. -/
def state_set (s : state_t) (key : Nat) (value : Option tcp_node_t) (block : ip_lookup_t) :
    Option state_t :=
  match ip_ht_get s.hash_table key with
  | some _ =>
    (ip_ht_set s.hash_table key value { block := block, id := 0 }).map
      (fun t => { s with hash_table := t })
  | none =>
    match util_id_allocate s.global_keystore.ip_bit_array with
    | none => none
    | some (id, bits) =>
      (ip_ht_set s.hash_table key value { block := block, id := id }).map
        (fun t =>
          { global_keystore := { s.global_keystore with ip_bit_array := bits },
            hash_table := t })

/-- The function `ip_ht_del` on the program state: its statements read and write the
table only, `global_keystore` does not occur in it. -/
def state_del (s : state_t) (key : Nat) : Option state_t :=
  (ip_ht_del s.hash_table key).map (fun t => { s with hash_table := t })

/-- The call `ip_ht_del_list(ip_ht_get(hash_table, key), proto, port)` on the program
state: its statements read and write the entry only, `global_keystore` does not occur
in `ip_ht_del_list`. -/
def state_del_list (s : state_t) (key proto port : Nat) : state_t :=
  { s with hash_table := ip_ht_del_list_at s.hash_table key proto port }

/-- A start state: pools of four identifiers each, TCP identifier 0 already given to
the record the caller is about to attach, and the empty table. -/
def sample_state : state_t :=
  { global_keystore :=
      { ip_bit_array := [false, false, false, false],
        tcp_bit_array := [true, false, false, false],
        udp_bit_array := [false, false, false, false] },
    hash_table := ip_ht_create }

/-- The state after address 5 got the TCP record with identifier 0 for port 80 and the
record was removed again. -/
def sample_state_emptied : state_t :=
  ((state_set sample_state 5 (some ⟨6, 0, 80⟩) ⟨0, 0, 0, []⟩).map
    (fun s => state_del_list s 5 6 80)).getD sample_state

/-- The state after `ip_ht_del` of address 5 in `sample_state_emptied`. -/
def sample_state_deleted : state_t :=
  (state_del sample_state_emptied 5).getD sample_state

/-! ## Reading and writing a bucket -/

theorem store_same (t : ip_ht_t) (h : Fin TABLE_SIZE) (c : List ip_lookup_t) :
    (store t h c).entries h = c := by
  simp [store]

theorem store_other (t : ip_ht_t) (h i : Fin TABLE_SIZE) (c : List ip_lookup_t)
    (hne : i ≠ h) : (store t h c).entries i = t.entries i := by
  simp [store, hne]

theorem store_self (t : ip_ht_t) (h : Fin TABLE_SIZE) : store t h (t.entries h) = t := by
  cases t with
  | mk f =>
    simp only [store, ip_ht_t.mk.injEq]
    funext i
    by_cases hi : i = h
    · simp [hi]
    · simp [hi]

theorem slot_val (k : Nat) : (slot k).val = long_hash k := rfl

theorem ip_ht_get_eq (t : ip_ht_t) (k : Nat) :
    ip_ht_get t k = ip_ht_get_chain k (t.entries (slot k)) := by
  unfold ip_ht_get
  cases h : t.entries (slot k) with
  | nil => simp only [h]; rfl
  | cons e l => simp only [h]

theorem ip_ht_set_eq (t : ip_ht_t) (k : Nat) (v : Option tcp_node_t) (fresh : fresh_t) :
    ip_ht_set t k v fresh =
      (ip_ht_set_chain fresh k v (t.entries (slot k))).map (store t (slot k)) := by
  unfold ip_ht_set
  cases h : t.entries (slot k) with
  | nil => simp only [h]; rfl
  | cons e l => simp only [h]

theorem ip_ht_del_eq (t : ip_ht_t) (k : Nat) :
    ip_ht_del t k = (ip_ht_del_chain k 0 (t.entries (slot k))).map (store t (slot k)) := by
  unfold ip_ht_del
  cases h : t.entries (slot k) with
  | nil =>
    have := store_self t (slot k)
    rw [h] at this
    simp only [h, ip_ht_del_chain, Option.map_some', this]
  | cons e l => simp only [h]

/-! ## Lookup -/

theorem get_chain_none_iff (k : Nat) (l : List ip_lookup_t) :
    ip_ht_get_chain k l = none ↔ ∀ x ∈ l, x.key ≠ k := by
  induction l with
  | nil => simp [ip_ht_get_chain]
  | cons a l ih =>
    unfold ip_ht_get_chain
    by_cases ha : a.key = k
    · simp [ha]
    · simp [ha, ih]

theorem get_chain_append (k : Nat) (pre : List ip_lookup_t) (l : List ip_lookup_t)
    (hpre : ∀ x ∈ pre, x.key ≠ k) :
    ip_ht_get_chain k (pre ++ l) = ip_ht_get_chain k l := by
  induction pre with
  | nil => rfl
  | cons a pre ih =>
    have ha : a.key ≠ k := hpre a (by simp)
    have hrest : ∀ x ∈ pre, x.key ≠ k := fun x hx => hpre x (by simp [hx])
    simp [ip_ht_get_chain, ha, ih hrest]

theorem get_chain_some_iff (k : Nat) (l : List ip_lookup_t) (e : ip_lookup_t) :
    ip_ht_get_chain k l = some e ↔
      ∃ pre post, l = pre ++ e :: post ∧ e.key = k ∧ ∀ x ∈ pre, x.key ≠ k := by
  constructor
  · intro h
    induction l with
    | nil => simp [ip_ht_get_chain] at h
    | cons a l ih =>
      unfold ip_ht_get_chain at h
      by_cases ha : a.key = k
      · simp only [ha, if_true, Option.some.injEq] at h
        subst h
        exact ⟨[], l, rfl, ha, by simp⟩
      · simp only [ha, if_false] at h
        obtain ⟨pre, post, hl, hk, hpre⟩ := ih h
        refine ⟨a :: pre, post, by simp [hl], hk, ?_⟩
        intro x hx
        rcases List.mem_cons.mp hx with rfl | hx
        · exact ha
        · exact hpre x hx
  · rintro ⟨pre, post, rfl, hk, hpre⟩
    rw [get_chain_append k pre _ hpre]
    simp [ip_ht_get_chain, hk]

/-- C1: `ip_ht_get` returns the first entry of the chain of bucket `long_hash(key)`
whose key is `key` (the entries before it in the chain have other keys), and it
returns null exactly when no entry of that chain has the key. -/
theorem ip_ht_get_first_match (t : ip_ht_t) (k : Nat) :
    (slot k).val = long_hash k ∧
    (∀ e, ip_ht_get t k = some e ↔
      ∃ pre post, t.entries (slot k) = pre ++ e :: post ∧ e.key = k ∧
        ∀ x ∈ pre, x.key ≠ k) ∧
    (ip_ht_get t k = none ↔ ∀ x ∈ t.entries (slot k), x.key ≠ k) := by
  refine ⟨rfl, ?_, ?_⟩
  · intro e
    rw [ip_ht_get_eq]
    exact get_chain_some_iff k _ e
  · rw [ip_ht_get_eq]
    exact get_chain_none_iff k _

/-! ## Insertion of a new entry -/

theorem set_chain_absent (fresh : fresh_t) (k : Nat) (v : Option tcp_node_t)
    (l : List ip_lookup_t) (h : ∀ x ∈ l, x.key ≠ k) :
    ip_ht_set_chain fresh k v l = some (l ++ [ip_ht_insert fresh k v]) := by
  induction l with
  | nil => simp [ip_ht_set_chain]
  | cons a l ih =>
    have ha : a.key ≠ k := h a (by simp)
    have hrest : ∀ x ∈ l, x.key ≠ k := fun x hx => h x (by simp [hx])
    simp [ip_ht_set_chain, ha, ih hrest]

theorem ip_ht_insert_key (fresh : fresh_t) (k : Nat) (v : Option tcp_node_t) :
    (ip_ht_insert fresh k v).key = k := by
  cases v <;> rfl

/-- C2: when no entry of the chain of bucket `long_hash(k)` has key `k` (the bucket
may be empty), `ip_ht_set` with a record `r` succeeds and `ip_ht_get` then returns an
entry with key `k` whose record list is exactly `[r]` and whose tag is the first byte
of `r`. -/
theorem ip_ht_get_set_absent (t : ip_ht_t) (k : Nat) (r : tcp_node_t) (fresh : fresh_t)
    (h : ∀ x ∈ t.entries (slot k), x.key ≠ k) :
    ∃ t2 e, ip_ht_set t k (some r) fresh = some t2 ∧ ip_ht_get t2 k = some e ∧
      e.key = k ∧ e.value = [r] ∧ e.ip_proto = r.ip_proto := by
  refine ⟨store t (slot k) (t.entries (slot k) ++ [ip_ht_insert fresh k (some r)]),
    ip_ht_insert fresh k (some r), ?_, ?_, rfl, rfl, rfl⟩
  · rw [ip_ht_set_eq, set_chain_absent fresh k _ _ h]
    rfl
  · rw [ip_ht_get_eq, store_same, get_chain_append k _ _ h]
    simp [ip_ht_get_chain, ip_ht_insert]

/-- Witness for C2: address 302 is new in the occupied bucket 104 of `sample_table`. -/
theorem ip_ht_get_set_absent_witness :
    (∀ x ∈ sample_table.entries (slot 302), x.key ≠ 302) ∧
    ∃ t2 e, ip_ht_set sample_table 302 (some ⟨17, 4, 123⟩) sample_fresh = some t2 ∧
      ip_ht_get t2 302 = some e ∧ e.key = 302 ∧ e.value = [⟨17, 4, 123⟩] ∧
      e.ip_proto = 17 :=
  ⟨by decide, ip_ht_get_set_absent sample_table 302 ⟨17, 4, 123⟩ sample_fresh (by decide)⟩

/-! ## Appending a record -/

theorem well_tagged_cons (p : Nat) (a : tcp_node_t) (l : List tcp_node_t) :
    well_tagged p (a :: l) ↔ (p = 6 ∨ p = 17) ∧ well_tagged a.ip_proto l := by
  simp [well_tagged]

theorem dump_list_length (p : Nat) (l : List tcp_node_t) (h : well_tagged p l) :
    (ip_ht_dump_list p l).length = l.length := by
  induction l generalizing p with
  | nil => simp [ip_ht_dump_list]
  | cons a l ih =>
    obtain ⟨hp, hl⟩ := (well_tagged_cons p a l).mp h
    simp [ip_ht_dump_list, hp, ih a.ip_proto hl]

theorem set_list_snoc (r : tcp_node_t) (init : List tcp_node_t) (last : tcp_node_t)
    (p : Nat) (h : well_tagged p (init ++ [last])) :
    ip_ht_set_list (some r) p (init ++ [last]) =
      some (init ++ [{ last with ip_proto := r.ip_proto }, r]) := by
  induction init generalizing p with
  | nil =>
    obtain ⟨hp, -⟩ := (well_tagged_cons p last []).mp h
    simp [ip_ht_set_list, hp]
  | cons a init ih =>
    obtain ⟨hp, hl⟩ := (well_tagged_cons p a (init ++ [last])).mp h
    have hcons : ∃ n rest, init ++ [last] = n :: rest := by
      cases init with
      | nil => exact ⟨last, [], rfl⟩
      | cons b init => exact ⟨b, init ++ [last], rfl⟩
    obtain ⟨n, rest, hnr⟩ := hcons
    have step : ip_ht_set_list (some r) p (a :: n :: rest) =
        (ip_ht_set_list (some r) a.ip_proto (n :: rest)).map (a :: ·) := by
      simp [ip_ht_set_list, hp]
    rw [List.cons_append, hnr, step, ← hnr, ih a.ip_proto hl]
    simp

theorem dump_list_snoc (r : tcp_node_t) (init : List tcp_node_t) (last : tcp_node_t)
    (p : Nat) (h : well_tagged p (init ++ [last]))
    (hr : r.ip_proto = 6 ∨ r.ip_proto = 17) :
    ip_ht_dump_list p (init ++ [{ last with ip_proto := r.ip_proto }, r]) =
      ip_ht_dump_list p (init ++ [last]) ++ [(r.ip_proto, r.id, r.port)] := by
  induction init generalizing p with
  | nil =>
    obtain ⟨hp, -⟩ := (well_tagged_cons p last []).mp h
    simp [ip_ht_dump_list, hp, hr]
  | cons a init ih =>
    obtain ⟨hp, hl⟩ := (well_tagged_cons p a (init ++ [last])).mp h
    simp [ip_ht_dump_list, hp, ih a.ip_proto hl]

theorem well_tagged_snoc (r : tcp_node_t) (init : List tcp_node_t) (last : tcp_node_t)
    (p : Nat) (h : well_tagged p (init ++ [last]))
    (hr : r.ip_proto = 6 ∨ r.ip_proto = 17) :
    well_tagged p (init ++ [{ last with ip_proto := r.ip_proto }, r]) := by
  induction init generalizing p with
  | nil =>
    obtain ⟨hp, -⟩ := (well_tagged_cons p last []).mp h
    simp [well_tagged, hp, hr]
  | cons a init ih =>
    obtain ⟨hp, hl⟩ := (well_tagged_cons p a (init ++ [last])).mp h
    exact (well_tagged_cons p a _).mpr ⟨hp, ih a.ip_proto hl⟩

theorem set_chain_found (fresh : fresh_t) (k : Nat) (v : Option tcp_node_t)
    (pre : List ip_lookup_t) (l : List ip_lookup_t) (hpre : ∀ x ∈ pre, x.key ≠ k) :
    ip_ht_set_chain fresh k v (pre ++ l) =
      (ip_ht_set_chain fresh k v l).map (pre ++ ·) := by
  induction pre with
  | nil => simp
  | cons a pre ih =>
    have ha : a.key ≠ k := hpre a (by simp)
    have hrest : ∀ x ∈ pre, x.key ≠ k := fun x hx => hpre x (by simp [hx])
    cases l with
    | nil =>
      rw [List.append_nil] at ih ⊢
      simp [ip_ht_set_chain, ha, ih hrest, Option.map_map, Function.comp_def]
    | cons b l =>
      simp [ip_ht_set_chain, ha, ih hrest, Option.map_map, Function.comp_def]

/-- C3: when the entry for `k` has a non-empty record list whose walk meets only tags 6
and 17, `ip_ht_set` with a record `r` of tag 6 or 17 succeeds, and the records the dump
walk prints for the entry afterwards are the ones printed before, each with the same
protocol, id and port and in the same order, followed by `r`; the walk still covers the
whole list, which is one node longer. -/
theorem ip_ht_set_appends_record (t : ip_ht_t) (k : Nat) (r : tcp_node_t) (fresh : fresh_t)
    (e : ip_lookup_t) (hget : ip_ht_get t k = some e) (hne : e.value ≠ [])
    (htag : well_tagged e.ip_proto e.value) (hr : r.ip_proto = 6 ∨ r.ip_proto = 17) :
    ∃ t2 e2, ip_ht_set t k (some r) fresh = some t2 ∧ ip_ht_get t2 k = some e2 ∧
      ip_ht_dump_entry e2 = ip_ht_dump_entry e ++ [(r.ip_proto, r.id, r.port)] ∧
      (ip_ht_dump_entry e).length = e.value.length ∧
      (ip_ht_dump_entry e2).length = e2.value.length ∧
      e2.value.length = e.value.length + 1 ∧
      e2.value.getLast? = some r ∧
      e2.key = e.key ∧ e2.id = e.id := by
  rw [ip_ht_get_eq] at hget
  obtain ⟨pre, post, hl, hk, hpre⟩ := (get_chain_some_iff k _ e).mp hget
  obtain ⟨init, last, hval⟩ : ∃ init last, e.value = init ++ [last] :=
    ⟨e.value.dropLast, e.value.getLast hne, (List.dropLast_append_getLast hne).symm⟩
  rw [hval] at htag
  have hcons : ∃ n rest, e.value = n :: rest := by
    cases hv : e.value with
    | nil => exact absurd hv hne
    | cons n rest => exact ⟨n, rest, rfl⟩
  obtain ⟨n, rest, hnr⟩ := hcons
  have hchain : ip_ht_set_chain fresh k (some r) (e :: post) =
      some ({ e with value := init ++ [{ last with ip_proto := r.ip_proto }, r] } :: post) := by
    have h1 : ip_ht_set_list (some r) e.ip_proto (n :: rest) =
        some (init ++ [{ last with ip_proto := r.ip_proto }, r]) := by
      rw [← hnr, hval]
      exact set_list_snoc r init last e.ip_proto htag
    simp [ip_ht_set_chain, hk, hnr, h1]
  refine ⟨store t (slot k)
      (pre ++ { e with value := init ++ [{ last with ip_proto := r.ip_proto }, r] } :: post),
    { e with value := init ++ [{ last with ip_proto := r.ip_proto }, r] }, ?_, ?_, ?_, ?_, ?_,
    ?_, ?_, rfl, rfl⟩
  · rw [ip_ht_set_eq, hl, set_chain_found fresh k _ pre _ hpre, hchain]
    rfl
  · rw [ip_ht_get_eq, store_same, get_chain_append k pre _ hpre]
    simp [ip_ht_get_chain, hk]
  · simp only [ip_ht_dump_entry, hval]
    exact dump_list_snoc r init last e.ip_proto htag hr
  · simp only [ip_ht_dump_entry, hval]
    exact dump_list_length _ _ htag
  · simp only [ip_ht_dump_entry]
    exact dump_list_length _ _ (well_tagged_snoc r init last e.ip_proto htag hr)
  · simp [hval]
  · simp

/-- Witness for C3: a UDP record is attached to address 168 of `sample_table`, which has
three records. -/
theorem ip_ht_set_appends_record_witness :
    ip_ht_get sample_table 168 = some sample_entry ∧ sample_entry.value ≠ [] ∧
    well_tagged sample_entry.ip_proto sample_entry.value ∧
    ∃ t2 e2, ip_ht_set sample_table 168 (some ⟨17, 5, 161⟩) sample_fresh = some t2 ∧
      ip_ht_get t2 168 = some e2 ∧
      ip_ht_dump_entry e2 = ip_ht_dump_entry sample_entry ++ [(17, 5, 161)] ∧
      (ip_ht_dump_entry sample_entry).length = sample_entry.value.length ∧
      (ip_ht_dump_entry e2).length = e2.value.length ∧
      e2.value.length = sample_entry.value.length + 1 ∧
      e2.value.getLast? = some ⟨17, 5, 161⟩ ∧
      e2.key = sample_entry.key ∧ e2.id = sample_entry.id :=
  ⟨by decide, by decide, by decide,
    ip_ht_set_appends_record sample_table 168 ⟨17, 5, 161⟩ sample_fresh sample_entry
      (by decide) (by decide) (by decide) (by decide)⟩

/-! ## Deleting an entry -/

theorem del_chain_at_match (k idx : Nat) (e : ip_lookup_t) (post : List ip_lookup_t)
    (hk : e.key = k) :
    ip_ht_del_chain k idx (e :: post) =
      if e.value = [] then some post else some (e :: post) := by
  unfold ip_ht_del_chain
  by_cases hp : post = [] <;> by_cases hi : idx = 0 <;> simp [hk, hp, hi]

theorem del_chain_skip (k idx : Nat) (pre : List ip_lookup_t) (l : List ip_lookup_t)
    (hpre : ∀ x ∈ pre, x.key ≠ k) :
    ip_ht_del_chain k idx (pre ++ l) =
      (ip_ht_del_chain k (idx + pre.length) l).map (pre ++ ·) := by
  induction pre generalizing idx with
  | nil => simp
  | cons a pre ih =>
    have ha : a.key ≠ k := hpre a (by simp)
    have hrest : ∀ x ∈ pre, x.key ≠ k := fun x hx => hpre x (by simp [hx])
    have hidx : idx + 1 + pre.length = idx + (pre.length + 1) := by omega
    simp [ip_ht_del_chain, ha, ih (idx + 1) hrest, Option.map_map, Function.comp_def, hidx]

theorem get_chain_drop (k2 : Nat) (pre : List ip_lookup_t) (e : ip_lookup_t)
    (post : List ip_lookup_t) (he : e.key ≠ k2) :
    ip_ht_get_chain k2 (pre ++ e :: post) = ip_ht_get_chain k2 (pre ++ post) := by
  induction pre with
  | nil => simp [ip_ht_get_chain, he]
  | cons a pre ih => simp [ip_ht_get_chain, ih]

theorem ip_ht_get_store_other (t : ip_ht_t) (h : Fin TABLE_SIZE) (c : List ip_lookup_t)
    (k2 : Nat) (hne : slot k2 ≠ h) : ip_ht_get (store t h c) k2 = ip_ht_get t k2 := by
  rw [ip_ht_get_eq, ip_ht_get_eq, store_other t h (slot k2) c hne]

/-- C4: when the entry `ip_ht_get` finds for `k` has a non-empty record list,
`ip_ht_del` returns with the table as it was, wherever the entry stands in its
chain. -/
theorem ip_ht_del_rejected (t : ip_ht_t) (k : Nat) (e : ip_lookup_t)
    (hget : ip_ht_get t k = some e) (hne : e.value ≠ []) :
    ip_ht_del t k = some t := by
  rw [ip_ht_get_eq] at hget
  obtain ⟨pre, post, hl, hk, hpre⟩ := (get_chain_some_iff k _ e).mp hget
  rw [ip_ht_del_eq, hl, del_chain_skip k 0 pre _ hpre, del_chain_at_match k _ e post hk]
  simp only [hne, if_false, Option.map_some', Option.some.injEq]
  rw [← hl]
  exact store_self t (slot k)

/-- Witness for C4: address 168 of `sample_table` is the head of its chain, has a
successor and has records. -/
theorem ip_ht_del_rejected_witness :
    ip_ht_get sample_table 168 = some sample_entry ∧ sample_entry.value ≠ [] ∧
    ip_ht_del sample_table 168 = some sample_table :=
  ⟨by decide, by decide,
    ip_ht_del_rejected sample_table 168 sample_entry (by decide) (by decide)⟩

/-- C5: when the chain of bucket `long_hash(k)` has pairwise distinct keys and the
entry for `k` has an empty record list, `ip_ht_del` succeeds; the chain afterwards is
the old chain without that entry, the other entries in their order; every other
bucket is as before; `ip_ht_get` no longer finds `k` and finds for every other key
what it found before. -/
theorem ip_ht_del_splices (t : ip_ht_t) (k : Nat) (e : ip_lookup_t)
    (hnodup : (chain_keys (t.entries (slot k))).Nodup)
    (hget : ip_ht_get t k = some e) (hval : e.value = []) :
    ∃ t2 pre post, ip_ht_del t k = some t2 ∧
      t.entries (slot k) = pre ++ e :: post ∧
      t2.entries (slot k) = pre ++ post ∧
      (∀ i, i ≠ slot k → t2.entries i = t.entries i) ∧
      ip_ht_get t2 k = none ∧
      ∀ k2, k2 ≠ k → ip_ht_get t2 k2 = ip_ht_get t k2 := by
  rw [ip_ht_get_eq] at hget
  obtain ⟨pre, post, hl, hk, hpre⟩ := (get_chain_some_iff k _ e).mp hget
  refine ⟨store t (slot k) (pre ++ post), pre, post, ?_, hl, store_same _ _ _,
    fun i hi => store_other t (slot k) i _ hi, ?_, ?_⟩
  · rw [ip_ht_del_eq, hl, del_chain_skip k 0 pre _ hpre, del_chain_at_match k _ e post hk]
    simp [hval]
  · rw [ip_ht_get_eq, store_same, get_chain_none_iff]
    intro x hx
    rcases List.mem_append.mp hx with hx | hx
    · exact hpre x hx
    · intro hxk
      rw [hl] at hnodup
      simp only [chain_keys, List.map_append, List.map_cons] at hnodup
      have h2 := (List.nodup_append.mp hnodup).2.1
      have h3 := (List.nodup_cons.mp h2).1
      apply h3
      rw [hk, ← hxk]
      exact List.mem_map_of_mem _ hx
  · intro k2 hk2
    by_cases hs : slot k2 = slot k
    · rw [ip_ht_get_eq, ip_ht_get_eq, hs, store_same, hl]
      exact (get_chain_drop k2 pre e post (by rw [hk]; exact fun h => hk2 h.symm)).symm
    · exact ip_ht_get_store_other t (slot k) _ k2 hs

/-- Witness for C5: address 5 of `sample_table` stands between two entries and has no
records. -/
theorem ip_ht_del_splices_witness :
    (chain_keys (sample_table.entries (slot 5))).Nodup ∧
    ip_ht_get sample_table 5 = some ⟨0, 1, 5, []⟩ ∧
    ∃ t2 pre post, ip_ht_del sample_table 5 = some t2 ∧
      sample_table.entries (slot 5) = pre ++ ⟨0, 1, 5, []⟩ :: post ∧
      t2.entries (slot 5) = pre ++ post ∧
      (∀ i, i ≠ slot 5 → t2.entries i = sample_table.entries i) ∧
      ip_ht_get t2 5 = none ∧
      ∀ k2, k2 ≠ 5 → ip_ht_get t2 k2 = ip_ht_get sample_table k2 :=
  ⟨by decide, by decide,
    ip_ht_del_splices sample_table 5 ⟨0, 1, 5, []⟩ (by decide) (by decide) rfl⟩

/-! ## Deleting a record -/

theorem is_record_iff (proto port : Nat) (x : Nat × Nat × Nat) :
    is_record proto port x = true ↔ x.1 = proto ∧ x.2.2 = port := by
  simp [is_record]

theorem del_list_tail_dump (proto port : Nat) (l : List tcp_node_t) (prev : tcp_node_t)
    (p0 : Nat) (hp0 : p0 = 6 ∨ p0 = 17) :
    ip_ht_dump_list p0 (ip_ht_del_list_tail proto port prev prev.ip_proto l) =
      (p0, prev.id, prev.port) ::
        (ip_ht_dump_list prev.ip_proto l).eraseP (is_record proto port) := by
  induction l generalizing prev p0 with
  | nil => simp [ip_ht_del_list_tail, ip_ht_dump_list, hp0]
  | cons a next ih =>
    by_cases hrec : prev.ip_proto = 6 ∨ prev.ip_proto = 17
    · by_cases hm : a.port = port ∧ prev.ip_proto = proto
      · obtain ⟨hport, hproto⟩ := hm
        subst hport hproto
        cases next with
        | nil =>
          simp [ip_ht_del_list_tail, ip_ht_dump_list, hp0, hrec, is_record]
        | cons n rest =>
          simp [ip_ht_del_list_tail, ip_ht_dump_list, hp0, hrec, is_record]
      · have hm2 : ¬ (prev.ip_proto = proto ∧ a.port = port) := fun h => hm ⟨h.2, h.1⟩
        simp [ip_ht_del_list_tail, ip_ht_dump_list, hp0, hrec, hm, hm2, is_record,
          ih a prev.ip_proto hrec, List.eraseP_cons]
    · simp [ip_ht_del_list_tail, ip_ht_dump_list, hp0, hrec]

theorem del_list_entry_dump (e : ip_lookup_t) (proto port : Nat) :
    ip_ht_dump_entry (ip_ht_del_list_entry e proto port) =
      (ip_ht_dump_entry e).eraseP (is_record proto port) := by
  obtain ⟨tag, id, key, value⟩ := e
  cases value with
  | nil => simp [ip_ht_del_list_entry, ip_ht_dump_entry, ip_ht_dump_list]
  | cons a next =>
    by_cases hrec : tag = 6 ∨ tag = 17
    · by_cases hm : a.port = port ∧ tag = proto
      · obtain ⟨hport, hproto⟩ := hm
        subst hport hproto
        cases next with
        | nil =>
          simp [ip_ht_del_list_entry, ip_ht_dump_entry, ip_ht_dump_list, hrec, is_record]
        | cons n rest =>
          simp [ip_ht_del_list_entry, ip_ht_dump_entry, ip_ht_dump_list, hrec, is_record]
      · have hm2 : ¬ (tag = proto ∧ a.port = port) := fun h => hm ⟨h.2, h.1⟩
        simp [ip_ht_del_list_entry, ip_ht_dump_entry, ip_ht_dump_list, hrec, hm, hm2,
          is_record, del_list_tail_dump proto port next a tag hrec, List.eraseP_cons]
    · simp [ip_ht_del_list_entry, ip_ht_dump_entry, ip_ht_dump_list, hrec]

theorem del_list_tail_well_tagged (proto port : Nat) (l : List tcp_node_t)
    (prev : tcp_node_t) (p0 : Nat) (h : well_tagged p0 (prev :: l)) :
    well_tagged p0 (ip_ht_del_list_tail proto port prev prev.ip_proto l) := by
  induction l generalizing prev p0 with
  | nil => simpa [ip_ht_del_list_tail] using h
  | cons a next ih =>
    obtain ⟨hp0, hl⟩ := (well_tagged_cons p0 prev _).mp h
    obtain ⟨hrec, hn⟩ := (well_tagged_cons prev.ip_proto a _).mp hl
    by_cases hm : a.port = port ∧ prev.ip_proto = proto
    · obtain ⟨hport, hproto⟩ := hm
      subst hport hproto
      cases next with
      | nil => simp [ip_ht_del_list_tail, hrec, well_tagged, hp0]
      | cons n rest =>
        simp only [ip_ht_del_list_tail, hrec, and_self, if_true]
        exact (well_tagged_cons p0 _ _).mpr ⟨hp0, hn⟩
    · simp only [ip_ht_del_list_tail, hrec, hm, if_true, if_false]
      exact (well_tagged_cons p0 _ _).mpr ⟨hp0, ih a prev.ip_proto hl⟩

theorem del_list_entry_well_tagged (e : ip_lookup_t) (proto port : Nat)
    (h : well_tagged e.ip_proto e.value) :
    well_tagged (ip_ht_del_list_entry e proto port).ip_proto
      (ip_ht_del_list_entry e proto port).value := by
  obtain ⟨tag, id, key, value⟩ := e
  cases value with
  | nil => simpa [ip_ht_del_list_entry] using h
  | cons a next =>
    obtain ⟨hrec, hn⟩ := (well_tagged_cons tag a _).mp h
    by_cases hm : a.port = port ∧ tag = proto
    · obtain ⟨hport, hproto⟩ := hm
      subst hport hproto
      cases next with
      | nil => simp [ip_ht_del_list_entry, hrec, well_tagged]
      | cons n rest =>
        simp only [ip_ht_del_list_entry, hrec, and_self, if_true]
        exact hn
    · simp only [ip_ht_del_list_entry, hrec, hm, if_true, if_false]
      exact del_list_tail_well_tagged proto port next a tag h

theorem del_list_tail_noop (proto port : Nat) (l : List tcp_node_t) (prev : tcp_node_t)
    (h : ∀ x ∈ ip_ht_dump_list prev.ip_proto l, ¬ (x.1 = proto ∧ x.2.2 = port)) :
    ip_ht_del_list_tail proto port prev prev.ip_proto l = prev :: l := by
  induction l generalizing prev with
  | nil => simp [ip_ht_del_list_tail]
  | cons a next ih =>
    by_cases hrec : prev.ip_proto = 6 ∨ prev.ip_proto = 17
    · have hm : ¬ (a.port = port ∧ prev.ip_proto = proto) := by
        intro hm
        exact h (prev.ip_proto, a.id, a.port) (by simp [ip_ht_dump_list, hrec]) ⟨hm.2, hm.1⟩
      have hrest : ∀ x ∈ ip_ht_dump_list a.ip_proto next, ¬ (x.1 = proto ∧ x.2.2 = port) := by
        intro x hx
        exact h x (by simp [ip_ht_dump_list, hrec, hx])
      simp only [ip_ht_del_list_tail, hrec, hm, if_true, if_false, ih a hrest]
    · simp only [ip_ht_del_list_tail, hrec, if_false]

theorem del_list_entry_noop (e : ip_lookup_t) (proto port : Nat)
    (h : ∀ x ∈ ip_ht_dump_entry e, ¬ (x.1 = proto ∧ x.2.2 = port)) :
    ip_ht_del_list_entry e proto port = e := by
  obtain ⟨tag, id, key, value⟩ := e
  cases value with
  | nil => simp [ip_ht_del_list_entry]
  | cons a next =>
    by_cases hrec : tag = 6 ∨ tag = 17
    · have hm : ¬ (a.port = port ∧ tag = proto) := by
        intro hm
        exact h (tag, a.id, a.port) (by simp [ip_ht_dump_entry, ip_ht_dump_list, hrec])
          ⟨hm.2, hm.1⟩
      have hrest : ∀ x ∈ ip_ht_dump_list a.ip_proto next, ¬ (x.1 = proto ∧ x.2.2 = port) := by
        intro x hx
        exact h x (by simp [ip_ht_dump_entry, ip_ht_dump_list, hrec, hx])
      simp only [ip_ht_del_list_entry, hrec, hm, if_true, if_false,
        del_list_tail_noop proto port next a hrest]
    · simp only [ip_ht_del_list_entry, hrec, if_false]

theorem del_list_entry_key (e : ip_lookup_t) (proto port : Nat) :
    (ip_ht_del_list_entry e proto port).key = e.key := by
  unfold ip_ht_del_list_entry
  split
  · rfl
  · split
    · split
      · split <;> rfl
      · rfl
    · rfl

theorem del_list_entry_id (e : ip_lookup_t) (proto port : Nat) :
    (ip_ht_del_list_entry e proto port).id = e.id := by
  unfold ip_ht_del_list_entry
  split
  · rfl
  · split
    · split
      · split <;> rfl
      · rfl
    · rfl

/-- C6: for an entry whose record list is well tagged, if the walk meets a record with
protocol `proto` and port `port`, `ip_ht_del_list` removes the first such record: the
records printed afterwards are the ones printed before without it, in their order and
with their protocol, id and port; the list stays well tagged, so the walk still covers
all of it; and if no record is left the list is empty.  The entry keeps key and id. -/
theorem ip_ht_del_list_removes_first (e : ip_lookup_t) (proto port : Nat)
    (htag : well_tagged e.ip_proto e.value)
    (hex : ∃ x ∈ ip_ht_dump_entry e, x.1 = proto ∧ x.2.2 = port) :
    ∃ e2 pre x post, ip_ht_del_list (some e) proto port = some e2 ∧
      ip_ht_dump_entry e = pre ++ x :: post ∧
      (x.1 = proto ∧ x.2.2 = port) ∧
      (∀ y ∈ pre, ¬ (y.1 = proto ∧ y.2.2 = port)) ∧
      ip_ht_dump_entry e2 = pre ++ post ∧
      (ip_ht_dump_entry e).length = e.value.length ∧
      (ip_ht_dump_entry e2).length = e2.value.length ∧
      (pre ++ post = [] → e2.value = []) ∧
      e2.key = e.key ∧ e2.id = e.id := by
  obtain ⟨x0, hx0, hp0⟩ := hex
  obtain ⟨x, pre, post, hpre, hx, hsplit, herase⟩ :=
    List.exists_of_eraseP hx0 ((is_record_iff proto port x0).mpr hp0)
  have htag2 := del_list_entry_well_tagged e proto port htag
  have hlen2 := dump_list_length _ _ htag2
  refine ⟨ip_ht_del_list_entry e proto port, pre, x, post, rfl, hsplit,
    (is_record_iff proto port x).mp hx, ?_, ?_, dump_list_length _ _ htag, hlen2, ?_,
    del_list_entry_key e proto port, del_list_entry_id e proto port⟩
  · intro y hy hyp
    exact hpre y hy ((is_record_iff proto port y).mpr hyp)
  · rw [del_list_entry_dump, herase]
  · intro hnil
    have hd : ip_ht_dump_entry (ip_ht_del_list_entry e proto port) = [] := by
      rw [del_list_entry_dump, herase, hnil]
    have h0 : (ip_ht_del_list_entry e proto port).value.length = 0 := by
      rw [← hlen2]
      simp only [ip_ht_dump_entry] at hd
      rw [hd]
      rfl
    exact List.length_eq_zero.mp h0

/-- Witness for C6: the TCP record for port 80 is the second of the three records of
`sample_entry`. -/
theorem ip_ht_del_list_removes_first_witness :
    well_tagged sample_entry.ip_proto sample_entry.value ∧
    (∃ x ∈ ip_ht_dump_entry sample_entry, x.1 = 6 ∧ x.2.2 = 80) ∧
    ∃ e2 pre x post, ip_ht_del_list (some sample_entry) 6 80 = some e2 ∧
      ip_ht_dump_entry sample_entry = pre ++ x :: post ∧
      (x.1 = 6 ∧ x.2.2 = 80) ∧
      (∀ y ∈ pre, ¬ (y.1 = 6 ∧ y.2.2 = 80)) ∧
      ip_ht_dump_entry e2 = pre ++ post ∧
      (ip_ht_dump_entry sample_entry).length = sample_entry.value.length ∧
      (ip_ht_dump_entry e2).length = e2.value.length ∧
      (pre ++ post = [] → e2.value = []) ∧
      e2.key = sample_entry.key ∧ e2.id = sample_entry.id :=
  ⟨by decide, by decide,
    ip_ht_del_list_removes_first sample_entry 6 80 (by decide) (by decide)⟩

/-- C7: when no record the walk meets has both protocol `proto` and port `port`,
`ip_ht_del_list` leaves the entry as it is, tag and record list with all stored tags
included; on the null pointer it returns at once. -/
theorem ip_ht_del_list_no_match (e : ip_lookup_t) (proto port : Nat)
    (h : ∀ x ∈ ip_ht_dump_entry e, ¬ (x.1 = proto ∧ x.2.2 = port)) :
    ip_ht_del_list (some e) proto port = some e ∧
      ip_ht_del_list none proto port = none := by
  refine ⟨?_, rfl⟩
  simp only [ip_ht_del_list, del_list_entry_noop e proto port h]

/-- Witness for C7: `sample_entry` has port 80 under TCP only, not under UDP. -/
theorem ip_ht_del_list_no_match_witness :
    (∀ x ∈ ip_ht_dump_entry sample_entry, ¬ (x.1 = 17 ∧ x.2.2 = 80)) ∧
    ip_ht_del_list (some sample_entry) 17 80 = some sample_entry ∧
    ip_ht_del_list none 17 80 = none :=
  ⟨by decide, ip_ht_del_list_no_match sample_entry 17 80 (by decide)⟩

theorem eraseP_no_match_of_countP_le_one {α : Type} (p : α → Bool) (l : List α)
    (h : l.countP p ≤ 1) : ∀ x ∈ l.eraseP p, ¬ (p x = true) := by
  induction l with
  | nil => simp
  | cons a l ih =>
    by_cases ha : p a = true
    · rw [List.eraseP_cons_of_pos ha]
      rw [List.countP_cons_of_pos _ _ ha] at h
      have h0 : l.countP p = 0 := by omega
      intro x hx
      exact List.countP_eq_zero.mp h0 x hx
    · rw [List.eraseP_cons_of_neg ha]
      rw [List.countP_cons_of_neg _ _ ha] at h
      intro x hx
      rcases List.mem_cons.mp hx with rfl | hx
      · exact ha
      · exact ih h x hx

/-- C8, as the code has it: two records with the same protocol and port, attached by
two `ip_ht_set` calls, are removed one per call, so the second `ip_ht_del_list` call
after a successful first one is not a no-op. -/
theorem ip_ht_del_list_twice_differs :
    (run_calls twice_calls ip_ht_create).bind (fun t => ip_ht_get t 5) = some twice_entry ∧
    ip_ht_del_list (some twice_entry) 6 80 ≠ some twice_entry ∧
    ip_ht_del_list (ip_ht_del_list (some twice_entry) 6 80) 6 80 ≠
      ip_ht_del_list (some twice_entry) 6 80 := by
  decide

/-- C8 amended: when at most one record the walk meets has protocol `proto` and port
`port`, a second `ip_ht_del_list` call with the same arguments changes nothing. -/
theorem ip_ht_del_list_idempotent_single (e : ip_lookup_t) (proto port : Nat)
    (h : (ip_ht_dump_entry e).countP (is_record proto port) ≤ 1) :
    ip_ht_del_list (ip_ht_del_list (some e) proto port) proto port =
      ip_ht_del_list (some e) proto port := by
  have hno : ∀ x ∈ ip_ht_dump_entry (ip_ht_del_list_entry e proto port),
      ¬ (x.1 = proto ∧ x.2.2 = port) := by
    intro x hx hp
    rw [del_list_entry_dump] at hx
    exact eraseP_no_match_of_countP_le_one _ _ h x hx ((is_record_iff proto port x).mpr hp)
  simp only [ip_ht_del_list, del_list_entry_noop _ proto port hno]

/-- Witness for the amended C8: `sample_entry` has one TCP record for port 443. -/
theorem ip_ht_del_list_idempotent_single_witness :
    (ip_ht_dump_entry sample_entry).countP (is_record 6 443) ≤ 1 ∧
    ip_ht_del_list (some sample_entry) 6 443 ≠ some sample_entry ∧
    ip_ht_del_list (ip_ht_del_list (some sample_entry) 6 443) 6 443 =
      ip_ht_del_list (some sample_entry) 6 443 :=
  ⟨by decide, by decide, ip_ht_del_list_idempotent_single sample_entry 6 443 (by decide)⟩

/-! ## Attaching to an entry without records -/

/-- C9: when the entry for `k` has an empty record list, `ip_ht_set` with a record `r`
succeeds; afterwards the entry's list is `[r]` if the first byte of `r` is 6 or 17 and
is empty otherwise.  In both cases the chain of the bucket holds the same entries at
the same places, only this entry changed, and the other buckets are as before. -/
theorem ip_ht_set_empty_entry (t : ip_ht_t) (k : Nat) (r : tcp_node_t) (fresh : fresh_t)
    (e : ip_lookup_t) (hget : ip_ht_get t k = some e) (hval : e.value = []) :
    ∃ t2 e2 pre post, ip_ht_set t k (some r) fresh = some t2 ∧
      ip_ht_get t2 k = some e2 ∧
      (e2.value = [r] ↔ (r.ip_proto = 6 ∨ r.ip_proto = 17)) ∧
      (¬ (r.ip_proto = 6 ∨ r.ip_proto = 17) → e2.value = []) ∧
      e2.key = e.key ∧ e2.id = e.id ∧
      t.entries (slot k) = pre ++ e :: post ∧
      t2.entries (slot k) = pre ++ e2 :: post ∧
      ∀ i, i ≠ slot k → t2.entries i = t.entries i := by
  rw [ip_ht_get_eq] at hget
  obtain ⟨pre, post, hl, hk, hpre⟩ := (get_chain_some_iff k _ e).mp hget
  by_cases hr : r.ip_proto = 6 ∨ r.ip_proto = 17
  · refine ⟨store t (slot k) (pre ++ { e with ip_proto := r.ip_proto, value := [r] } :: post),
      { e with ip_proto := r.ip_proto, value := [r] }, pre, post, ?_, ?_, ?_, ?_, rfl, rfl,
      hl, store_same _ _ _, fun i hi => store_other t (slot k) i _ hi⟩
    · rw [ip_ht_set_eq, hl, set_chain_found fresh k _ pre _ hpre]
      simp [ip_ht_set_chain, hk, hval, hr]
    · rw [ip_ht_get_eq, store_same, get_chain_append k pre _ hpre]
      simp [ip_ht_get_chain, hk]
    · simp [hr]
    · intro hn
      exact absurd hr hn
  · refine ⟨store t (slot k) (pre ++ { e with ip_proto := r.ip_proto } :: post),
      { e with ip_proto := r.ip_proto }, pre, post, ?_, ?_, ?_, ?_, rfl, rfl,
      hl, store_same _ _ _, fun i hi => store_other t (slot k) i _ hi⟩
    · rw [ip_ht_set_eq, hl, set_chain_found fresh k _ pre _ hpre]
      simp [ip_ht_set_chain, hk, hval, hr]
    · rw [ip_ht_get_eq, store_same, get_chain_append k pre _ hpre]
      simp [ip_ht_get_chain, hk]
    · simp [hr, hval]
    · intro _
      exact hval

/-- Witness for C9: a record with the unknown tag 1 is offered to address 5 of
`sample_table`, whose entry has no records. -/
theorem ip_ht_set_empty_entry_witness :
    ip_ht_get sample_table 5 = some ⟨0, 1, 5, []⟩ ∧
    ∃ t2 e2 pre post, ip_ht_set sample_table 5 (some ⟨1, 7, 8080⟩) sample_fresh = some t2 ∧
      ip_ht_get t2 5 = some e2 ∧
      (e2.value = [⟨1, 7, 8080⟩] ↔ ((1 : Nat) = 6 ∨ (1 : Nat) = 17)) ∧
      (¬ ((1 : Nat) = 6 ∨ (1 : Nat) = 17) → e2.value = []) ∧
      e2.key = 5 ∧ e2.id = 1 ∧
      sample_table.entries (slot 5) = pre ++ ⟨0, 1, 5, []⟩ :: post ∧
      t2.entries (slot 5) = pre ++ e2 :: post ∧
      ∀ i, i ≠ slot 5 → t2.entries i = sample_table.entries i :=
  ⟨by decide,
    ip_ht_set_empty_entry sample_table 5 ⟨1, 7, 8080⟩ sample_fresh ⟨0, 1, 5, []⟩
      (by decide) rfl⟩

/-! ## The bucket invariant -/

theorem set_chain_at_match (fresh : fresh_t) (k : Nat) (v : Option tcp_node_t)
    (e : ip_lookup_t) (post l2 : List ip_lookup_t) (hk : e.key = k)
    (h : ip_ht_set_chain fresh k v (e :: post) = some l2) :
    ∃ e2, l2 = e2 :: post ∧ e2.key = e.key := by
  simp only [ip_ht_set_chain, hk, if_true] at h
  split at h
  · split at h
    · split at h
      · exact ⟨_, (Option.some.inj h).symm, hk.symm⟩
      · exact ⟨_, (Option.some.inj h).symm, hk.symm⟩
    · exact ⟨_, (Option.some.inj h).symm, rfl⟩
  · obtain ⟨l, -, hl⟩ := Option.map_eq_some'.mp h
    exact ⟨_, hl.symm, hk.symm⟩

theorem set_chain_keys (fresh : fresh_t) (k : Nat) (v : Option tcp_node_t)
    (l l2 : List ip_lookup_t) (h : ip_ht_set_chain fresh k v l = some l2) :
    chain_keys l2 = chain_keys l ∨
      (k ∉ chain_keys l ∧ chain_keys l2 = chain_keys l ++ [k]) := by
  cases hg : ip_ht_get_chain k l with
  | none =>
    have habs := (get_chain_none_iff k l).mp hg
    rw [set_chain_absent fresh k v l habs] at h
    right
    refine ⟨?_, ?_⟩
    · intro hmem
      obtain ⟨x, hx, hxk⟩ := List.mem_map.mp hmem
      exact habs x hx hxk
    · rw [← Option.some.inj h]
      simp [chain_keys, ip_ht_insert_key]
  | some e =>
    obtain ⟨pre, post, hl, hk, hpre⟩ := (get_chain_some_iff k l e).mp hg
    rw [hl, set_chain_found fresh k v pre _ hpre] at h
    obtain ⟨l3, hl3, hl2⟩ := Option.map_eq_some'.mp h
    obtain ⟨e2, he2, hkey⟩ := set_chain_at_match fresh k v e post l3 hk hl3
    left
    rw [← hl2, he2, hl]
    simp [chain_keys, hkey]

theorem del_chain_keys (k : Nat) (l : List ip_lookup_t) (idx : Nat) (l2 : List ip_lookup_t)
    (h : ip_ht_del_chain k idx l = some l2) : List.Sublist l2 l := by
  induction l generalizing idx l2 with
  | nil =>
    simp only [ip_ht_del_chain, Option.some.injEq] at h
    rw [← h]
  | cons a l ih =>
    by_cases ha : a.key = k
    · rw [del_chain_at_match k idx a l ha] at h
      by_cases hv : a.value = []
      · simp only [hv, if_true, Option.some.injEq] at h
        rw [← h]
        exact List.sublist_cons_self a l
      · simp only [hv, if_false, Option.some.injEq] at h
        rw [← h]
    · simp only [ip_ht_del_chain, ha, if_false] at h
      obtain ⟨l3, hl3, hl2⟩ := Option.map_eq_some'.mp h
      rw [← hl2]
      exact List.Sublist.cons₂ a (ih (idx + 1) l3 hl3)

theorem del_chain_total (k : Nat) (l : List ip_lookup_t) (idx : Nat) :
    ∃ l2, ip_ht_del_chain k idx l = some l2 := by
  induction l generalizing idx with
  | nil => exact ⟨[], rfl⟩
  | cons a l ih =>
    by_cases ha : a.key = k
    · rw [del_chain_at_match k idx a l ha]
      by_cases hv : a.value = []
      · exact ⟨l, by simp [hv]⟩
      · exact ⟨a :: l, by simp [hv]⟩
    · obtain ⟨l3, hl3⟩ := ih (idx + 1)
      exact ⟨a :: l3, by simp [ip_ht_del_chain, ha, hl3]⟩

theorem del_list_chain_keys (k proto port : Nat) (l : List ip_lookup_t) :
    chain_keys (ip_ht_del_list_chain k proto port l) = chain_keys l := by
  induction l with
  | nil => rfl
  | cons a l ih =>
    by_cases ha : a.key = k
    · simp [ip_ht_del_list_chain, ha, chain_keys, del_list_entry_key]
    · simp only [chain_keys] at ih
      simp [ip_ht_del_list_chain, ha, chain_keys, ih]

theorem chain_ok_iff (i : Fin TABLE_SIZE) (c : List ip_lookup_t) :
    chain_ok i c ↔ (chain_keys c).Nodup ∧ ∀ x ∈ chain_keys c, long_hash x = i.val := by
  simp [chain_ok, chain_keys]

theorem buckets_ok_store (t : ip_ht_t) (h : Fin TABLE_SIZE) (c : List ip_lookup_t)
    (ht : buckets_ok t) (hc : chain_ok h c) : buckets_ok (store t h c) := by
  intro i
  by_cases hi : i = h
  · rw [hi, store_same]
    exact hc
  · rw [store_other t h i c hi]
    exact ht i

theorem buckets_ok_create : buckets_ok ip_ht_create := by
  intro i
  simp [chain_ok, chain_keys, ip_ht_create]

theorem buckets_ok_set (t : ip_ht_t) (k : Nat) (v : Option tcp_node_t) (fresh : fresh_t)
    (t2 : ip_ht_t) (ht : buckets_ok t) (h : ip_ht_set t k v fresh = some t2) :
    buckets_ok t2 := by
  rw [ip_ht_set_eq] at h
  obtain ⟨l2, hl2, hst⟩ := Option.map_eq_some'.mp h
  rw [← hst]
  apply buckets_ok_store t _ _ ht
  obtain ⟨hnd, hhash⟩ := (chain_ok_iff _ _).mp (ht (slot k))
  rw [chain_ok_iff]
  rcases set_chain_keys fresh k v _ l2 hl2 with hk | ⟨hnot, hk⟩
  · rw [hk]
    exact ⟨hnd, hhash⟩
  · rw [hk]
    refine ⟨?_, ?_⟩
    · rw [List.nodup_append]
      refine ⟨hnd, List.nodup_singleton k, ?_⟩
      intro x hx hx2
      rw [List.mem_singleton] at hx2
      rw [hx2] at hx
      exact hnot hx
    · intro x hx
      rcases List.mem_append.mp hx with hx | hx
      · exact hhash x hx
      · rw [List.mem_singleton] at hx
        rw [hx]
        rfl

theorem buckets_ok_del (t : ip_ht_t) (k : Nat) (t2 : ip_ht_t) (ht : buckets_ok t)
    (h : ip_ht_del t k = some t2) : buckets_ok t2 := by
  rw [ip_ht_del_eq] at h
  obtain ⟨l2, hl2, hst⟩ := Option.map_eq_some'.mp h
  rw [← hst]
  apply buckets_ok_store t _ _ ht
  have hsub := del_chain_keys k _ 0 l2 hl2
  obtain ⟨hnd, hhash⟩ := ht (slot k)
  refine ⟨?_, ?_⟩
  · exact List.Nodup.sublist (List.Sublist.map _ hsub) hnd
  · intro e he
    exact hhash e (hsub.subset he)

theorem buckets_ok_del_list (t : ip_ht_t) (k proto port : Nat) (ht : buckets_ok t) :
    buckets_ok (ip_ht_del_list_at t k proto port) := by
  unfold ip_ht_del_list_at
  apply buckets_ok_store t _ _ ht
  rw [chain_ok_iff, del_list_chain_keys]
  exact (chain_ok_iff _ _).mp (ht (slot k))

theorem buckets_ok_call (c : call_t) (t t2 : ip_ht_t) (ht : buckets_ok t)
    (h : c.run t = some t2) : buckets_ok t2 := by
  cases c with
  | set key value fresh => exact buckets_ok_set t key value fresh t2 ht h
  | del key => exact buckets_ok_del t key t2 ht h
  | del_list key proto port =>
    simp only [call_t.run, Option.some.injEq] at h
    rw [← h]
    exact buckets_ok_del_list t key proto port ht

/-- C10: the bucket invariant (pairwise distinct keys in each bucket chain, every
entry in the bucket its key hashes to) holds for the table `ip_ht_create` returns and
is kept by every sequence of `ip_ht_set`, `ip_ht_del` and `ip_ht_del_list` calls, from
any table that has it; so it holds in every table reached from the empty one. -/
theorem buckets_ok_preserved (t0 : ip_ht_t) (cs : List call_t) (t : ip_ht_t)
    (h0 : buckets_ok t0) (h : run_calls cs t0 = some t) :
    buckets_ok ip_ht_create ∧ buckets_ok t := by
  refine ⟨buckets_ok_create, ?_⟩
  induction cs generalizing t0 with
  | nil =>
    simp only [run_calls, Option.some.injEq] at h
    rw [← h]
    exact h0
  | cons c cs ih =>
    simp only [run_calls] at h
    cases hc : c.run t0 with
    | none => simp [hc] at h
    | some t1 =>
      simp only [hc] at h
      exact ih t1 (buckets_ok_call c t0 t1 h0 hc) h

/-- Witness for C10: `sample_calls` run on `sample_table`. -/
theorem buckets_ok_preserved_witness :
    buckets_ok sample_table ∧ run_calls sample_calls sample_table = some sample_result ∧
    buckets_ok ip_ht_create ∧ buckets_ok sample_result :=
  ⟨by decide, rfl,
    buckets_ok_preserved sample_table sample_calls sample_result (by decide) rfl⟩

/-! ## The hash functions -/

theorem mix32_lt (k : Nat) : mix32 k < TABLE_SIZE := by
  unfold mix32
  exact Nat.mod_lt _ (by decide)

/-- C11: each of `byte_hash`, `sort_hash`, `long_hash` and `long_long_hash`, with the mix
computed modulo `2 ^ 32` (modulo `2 ^ 64` for the last), returns an index below 128 for
every key, and equal keys give equal indices. -/
theorem hash_range (k : Nat) :
    (byte_hash k < TABLE_SIZE ∧ sort_hash k < TABLE_SIZE ∧ long_hash k < TABLE_SIZE ∧
      long_long_hash k < TABLE_SIZE) ∧ TABLE_SIZE = 128 ∧
    ∀ k2, k2 = k →
      byte_hash k2 = byte_hash k ∧ sort_hash k2 = sort_hash k ∧
        long_hash k2 = long_hash k ∧ long_long_hash k2 = long_long_hash k := by
  refine ⟨⟨mix32_lt k, mix32_lt k, mix32_lt k, ?_⟩, rfl, ?_⟩
  · unfold long_long_hash
    exact Nat.mod_lt _ (by decide)
  · intro k2 hk
    rw [hk]
    exact ⟨rfl, rfl, rfl, rfl⟩

/-! ## The two-record scenario -/

theorem scenario_any_key (k : Nat) (f1 f2 : fresh_t) (ru rt : tcp_node_t)
    (hu : ru.ip_proto = 17) (ht : rt.ip_proto = 6) (hport : ru.port = rt.port) :
    ∃ t2 e2 t5,
      run_calls [.set k (some ru) f1, .set k (some rt) f2] ip_ht_create = some t2 ∧
      ip_ht_get t2 k = some e2 ∧ e2.value.length = 2 ∧
      ip_ht_dump_entry e2 = [(17, ru.id, ru.port), (6, rt.id, rt.port)] ∧
      (ip_ht_del_list (some e2) 17 ru.port).map ip_ht_dump_entry =
        some [(6, rt.id, rt.port)] ∧
      ((ip_ht_del_list (some e2) 17 ru.port).map (fun e => e.value.length)) = some 1 ∧
      (ip_ht_del_list (ip_ht_del_list (some e2) 17 ru.port) 6 ru.port).map
        (fun e => e.value) = some [] ∧
      run_calls [.del_list k 17 ru.port, .del_list k 6 ru.port, .del k] t2 = some t5 ∧
      ip_ht_get t5 k = none ∧ ∀ i, t5.entries i = [] := by
  refine ⟨store (store ip_ht_create (slot k) [⟨17, f1.id % 256, k, [ru]⟩]) (slot k)
      [⟨17, f1.id % 256, k, [{ ru with ip_proto := 6 }, rt]⟩],
    ⟨17, f1.id % 256, k, [{ ru with ip_proto := 6 }, rt]⟩,
    store (store (store (store (store ip_ht_create (slot k) [⟨17, f1.id % 256, k, [ru]⟩])
      (slot k) [⟨17, f1.id % 256, k, [{ ru with ip_proto := 6 }, rt]⟩])
      (slot k) [⟨6, f1.id % 256, k, [rt]⟩]) (slot k) [⟨0, f1.id % 256, k, []⟩]) (slot k) [],
    ?_, ?_, rfl, ?_, ?_, ?_, ?_, ?_, ?_, ?_⟩
  · simp [run_calls, call_t.run, ip_ht_set_eq, store_same, ip_ht_create, ip_ht_set_chain,
      ip_ht_insert, ip_ht_set_list, hu, ht]
  · simp [ip_ht_get_eq, store_same, ip_ht_get_chain]
  · simp [ip_ht_dump_entry, ip_ht_dump_list]
  · simp [ip_ht_del_list, ip_ht_del_list_entry, ip_ht_dump_entry, ip_ht_dump_list]
  · simp [ip_ht_del_list, ip_ht_del_list_entry]
  · simp [ip_ht_del_list, ip_ht_del_list_entry, hport]
  · simp [run_calls, call_t.run, ip_ht_del_eq, ip_ht_del_list_at, store_same,
      ip_ht_del_list_chain, ip_ht_del_list_entry, ip_ht_del_chain, hport]
  · simp [ip_ht_get_eq, store_same, ip_ht_get_chain]
  · intro i
    by_cases hi : i = slot k
    · rw [hi, store_same]
    · simp [store, hi, ip_ht_create]

/-- C12: on the empty table, after `ip_ht_set` of address `0x46827024` with a UDP record
for port `0x77` and then with a TCP record for port `0x77`, `ip_ht_get` returns one
entry whose list has two nodes, printed as UDP then TCP; `ip_ht_del_list` for (17,
`0x77`) leaves the TCP node alone; `ip_ht_del_list` for (6, `0x77`) then leaves the
list empty; `ip_ht_del` then empties the bucket and `ip_ht_get` returns null.  The
ids of the records and the allocation results are arbitrary. -/
theorem scenario_two_records (f1 f2 : fresh_t) (iu it : Nat) :
    ∃ t2 e2 t5,
      run_calls [.set driver_ip (some (driver_udp iu)) f1,
        .set driver_ip (some (driver_tcp it)) f2] ip_ht_create = some t2 ∧
      ip_ht_get t2 driver_ip = some e2 ∧ e2.value.length = 2 ∧
      ip_ht_dump_entry e2 = [(17, iu, 0x77), (6, it, 0x77)] ∧
      (ip_ht_del_list (some e2) 17 0x77).map ip_ht_dump_entry = some [(6, it, 0x77)] ∧
      ((ip_ht_del_list (some e2) 17 0x77).map (fun e => e.value.length)) = some 1 ∧
      (ip_ht_del_list (ip_ht_del_list (some e2) 17 0x77) 6 0x77).map (fun e => e.value) =
        some [] ∧
      run_calls [.del_list driver_ip 17 0x77, .del_list driver_ip 6 0x77, .del driver_ip]
        t2 = some t5 ∧
      ip_ht_get t5 driver_ip = none ∧ ∀ i, t5.entries i = [] :=
  scenario_any_key driver_ip f1 f2 (driver_udp iu) (driver_tcp it) rfl rfl rfl

/-! ## Effect of a call on lookups -/

theorem get_store (t : ip_ht_t) (h : Fin TABLE_SIZE) (c : List ip_lookup_t) (k2 : Nat) :
    ip_ht_get (store t h c) k2 =
      if slot k2 = h then ip_ht_get_chain k2 c else ip_ht_get t k2 := by
  by_cases hs : slot k2 = h
  · rw [ip_ht_get_eq, hs, store_same]
    simp
  · rw [ip_ht_get_store_other t h c k2 hs]
    simp [hs]

theorem get_store_chain (t : ip_ht_t) (k : Nat) (c : List ip_lookup_t) (k2 : Nat)
    (hc : ip_ht_get_chain k2 c = ip_ht_get_chain k2 (t.entries (slot k))) :
    ip_ht_get (store t (slot k) c) k2 = ip_ht_get t k2 := by
  rw [get_store]
  by_cases hs : slot k2 = slot k
  · rw [if_pos hs, hc, ip_ht_get_eq, hs]
  · rw [if_neg hs]

theorem set_list_total (r : tcp_node_t) (l : List tcp_node_t) (p : Nat) :
    ∃ l2, ip_ht_set_list (some r) p l = some l2 := by
  induction l generalizing p with
  | nil => exact ⟨[], rfl⟩
  | cons a l ih =>
    cases l with
    | nil =>
      by_cases hp : p = 6 ∨ p = 17
      · simp [ip_ht_set_list, hp]
      · simp [ip_ht_set_list, hp]
    | cons n rest =>
      by_cases hp : p = 6 ∨ p = 17
      · obtain ⟨l3, hl3⟩ := ih a.ip_proto
        simp [ip_ht_set_list, hp, hl3]
      · simp [ip_ht_set_list, hp]

theorem set_chain_total (fresh : fresh_t) (k : Nat) (r : tcp_node_t)
    (l : List ip_lookup_t) : ∃ l2, ip_ht_set_chain fresh k (some r) l = some l2 := by
  induction l with
  | nil => exact ⟨_, rfl⟩
  | cons a l ih =>
    by_cases ha : a.key = k
    · cases hv : a.value with
      | nil =>
        by_cases hr : r.ip_proto = 6 ∨ r.ip_proto = 17
        · simp [ip_ht_set_chain, ha, hv, hr]
        · simp [ip_ht_set_chain, ha, hv, hr]
      | cons n rest =>
        obtain ⟨l3, hl3⟩ := set_list_total r (n :: rest) a.ip_proto
        simp [ip_ht_set_chain, ha, hv, hl3]
    · obtain ⟨l3, hl3⟩ := ih
      simp [ip_ht_set_chain, ha, hl3]

theorem set_chain_get_other (fresh : fresh_t) (k : Nat) (v : Option tcp_node_t)
    (l l2 : List ip_lookup_t) (k2 : Nat) (h : ip_ht_set_chain fresh k v l = some l2)
    (hne : k2 ≠ k) : ip_ht_get_chain k2 l2 = ip_ht_get_chain k2 l := by
  induction l generalizing l2 with
  | nil =>
    simp only [ip_ht_set_chain, Option.some.injEq] at h
    rw [← h]
    have hk : (ip_ht_insert fresh k v).key ≠ k2 := by
      rw [ip_ht_insert_key]
      exact fun h => hne h.symm
    simp [ip_ht_get_chain, hk]
  | cons a l ih =>
    by_cases ha : a.key = k
    · obtain ⟨e2, he2, hkey⟩ := set_chain_at_match fresh k v a l l2 ha h
      have h1 : a.key ≠ k2 := by rw [ha]; exact fun h => hne h.symm
      have h2 : e2.key ≠ k2 := by rw [hkey]; exact h1
      rw [he2]
      simp [ip_ht_get_chain, h1, h2]
    · simp only [ip_ht_set_chain, ha, if_false] at h
      obtain ⟨l3, hl3, hl2⟩ := Option.map_eq_some'.mp h
      rw [← hl2]
      simp [ip_ht_get_chain, ih l3 hl3]

theorem ip_ht_set_get_other (t : ip_ht_t) (k : Nat) (v : Option tcp_node_t)
    (fresh : fresh_t) (t2 : ip_ht_t) (k2 : Nat) (h : ip_ht_set t k v fresh = some t2)
    (hne : k2 ≠ k) : ip_ht_get t2 k2 = ip_ht_get t k2 := by
  rw [ip_ht_set_eq] at h
  obtain ⟨l2, hl2, hst⟩ := Option.map_eq_some'.mp h
  rw [← hst]
  exact get_store_chain t k l2 k2 (set_chain_get_other fresh k v _ l2 k2 hl2 hne)

theorem del_chain_get_other (k : Nat) (l : List ip_lookup_t) (idx : Nat)
    (l2 : List ip_lookup_t) (k2 : Nat) (h : ip_ht_del_chain k idx l = some l2)
    (hne : k2 ≠ k) : ip_ht_get_chain k2 l2 = ip_ht_get_chain k2 l := by
  induction l generalizing idx l2 with
  | nil =>
    simp only [ip_ht_del_chain, Option.some.injEq] at h
    rw [← h]
  | cons a l ih =>
    by_cases ha : a.key = k
    · have h1 : a.key ≠ k2 := by rw [ha]; exact fun h => hne h.symm
      rw [del_chain_at_match k idx a l ha] at h
      by_cases hv : a.value = []
      · simp only [hv, if_true, Option.some.injEq] at h
        rw [← h]
        simp [ip_ht_get_chain, h1]
      · simp only [hv, if_false, Option.some.injEq] at h
        rw [← h]
    · simp only [ip_ht_del_chain, ha, if_false] at h
      obtain ⟨l3, hl3, hl2⟩ := Option.map_eq_some'.mp h
      rw [← hl2]
      simp [ip_ht_get_chain, ih (idx + 1) l3 hl3]

theorem ip_ht_del_get_other (t : ip_ht_t) (k : Nat) (t2 : ip_ht_t) (k2 : Nat)
    (h : ip_ht_del t k = some t2) (hne : k2 ≠ k) : ip_ht_get t2 k2 = ip_ht_get t k2 := by
  rw [ip_ht_del_eq] at h
  obtain ⟨l2, hl2, hst⟩ := Option.map_eq_some'.mp h
  rw [← hst]
  exact get_store_chain t k l2 k2 (del_chain_get_other k _ 0 l2 k2 hl2 hne)

theorem del_list_chain_get_other (k proto port : Nat) (l : List ip_lookup_t) (k2 : Nat)
    (hne : k2 ≠ k) :
    ip_ht_get_chain k2 (ip_ht_del_list_chain k proto port l) = ip_ht_get_chain k2 l := by
  induction l with
  | nil => rfl
  | cons a l ih =>
    by_cases ha : a.key = k
    · have h1 : a.key ≠ k2 := by rw [ha]; exact fun h => hne h.symm
      have h2 : (ip_ht_del_list_entry a proto port).key ≠ k2 := by
        rw [del_list_entry_key]; exact h1
      have h3 : k ≠ k2 := fun h => hne h.symm
      simp [ip_ht_del_list_chain, ha, ip_ht_get_chain, h2, h3]
    · simp [ip_ht_del_list_chain, ha, ip_ht_get_chain, ih]

theorem del_list_chain_get_same (k proto port : Nat) (l : List ip_lookup_t) :
    ip_ht_get_chain k (ip_ht_del_list_chain k proto port l) =
      ip_ht_del_list (ip_ht_get_chain k l) proto port := by
  induction l with
  | nil => rfl
  | cons a l ih =>
    by_cases ha : a.key = k
    · have h2 : (ip_ht_del_list_entry a proto port).key = k := by
        rw [del_list_entry_key]; exact ha
      simp [ip_ht_del_list_chain, ha, ip_ht_get_chain, h2, ip_ht_del_list]
    · simp [ip_ht_del_list_chain, ha, ip_ht_get_chain, ih]

theorem ip_ht_del_list_at_get_other (t : ip_ht_t) (k proto port k2 : Nat) (hne : k2 ≠ k) :
    ip_ht_get (ip_ht_del_list_at t k proto port) k2 = ip_ht_get t k2 :=
  get_store_chain t k _ k2 (del_list_chain_get_other k proto port _ k2 hne)

theorem ip_ht_del_list_at_get_same (t : ip_ht_t) (k proto port : Nat) :
    ip_ht_get (ip_ht_del_list_at t k proto port) k =
      ip_ht_del_list (ip_ht_get t k) proto port := by
  unfold ip_ht_del_list_at
  rw [get_store, if_pos rfl, del_list_chain_get_same, ip_ht_get_eq]

/-! ## A new entry at the end of a chain -/

/-- C16: when the chain of bucket `long_hash(k)` is not empty and none of its entries
has key `k`, `ip_ht_set` succeeds and the chain afterwards is the old chain, entries
and their record lists as they were, followed by the one new entry for `k`; every
other bucket is as before. -/
theorem ip_ht_set_appends_entry (t : ip_ht_t) (k : Nat) (v : Option tcp_node_t)
    (fresh : fresh_t) (_hne : t.entries (slot k) ≠ [])
    (habs : ∀ x ∈ t.entries (slot k), x.key ≠ k) :
    ∃ t2, ip_ht_set t k v fresh = some t2 ∧
      t2.entries (slot k) = t.entries (slot k) ++ [ip_ht_insert fresh k v] ∧
      (ip_ht_insert fresh k v).key = k ∧
      ∀ i, i ≠ slot k → t2.entries i = t.entries i := by
  refine ⟨store t (slot k) (t.entries (slot k) ++ [ip_ht_insert fresh k v]), ?_,
    store_same _ _ _, ip_ht_insert_key fresh k v, fun i hi => store_other t (slot k) i _ hi⟩
  rw [ip_ht_set_eq, set_chain_absent fresh k v _ habs]
  rfl

/-- Witness for C16: address 302 is new in bucket 104 of `sample_table`, which holds
three entries. -/
theorem ip_ht_set_appends_entry_witness :
    sample_table.entries (slot 302) ≠ [] ∧
    (∀ x ∈ sample_table.entries (slot 302), x.key ≠ 302) ∧
    ∃ t2, ip_ht_set sample_table 302 (some ⟨6, 4, 25⟩) sample_fresh = some t2 ∧
      t2.entries (slot 302) =
        sample_table.entries (slot 302) ++ [ip_ht_insert sample_fresh 302 (some ⟨6, 4, 25⟩)] ∧
      (ip_ht_insert sample_fresh 302 (some ⟨6, 4, 25⟩)).key = 302 ∧
      ∀ i, i ≠ slot 302 → t2.entries i = sample_table.entries i :=
  ⟨by decide, by decide,
    ip_ht_set_appends_entry sample_table 302 (some ⟨6, 4, 25⟩) sample_fresh
      (by decide) (by decide)⟩

/-! ## An entry created without a record -/

theorem ip_ht_set_without_record_general (t : ip_ht_t) (k : Nat) (fresh : fresh_t)
    (habs : ∀ x ∈ t.entries (slot k), x.key ≠ k) :
    ∃ t2 e, ip_ht_set t k none fresh = some t2 ∧ ip_ht_get t2 k = some e ∧
      e.key = k ∧ e.value = fresh.block.value ∧ e.ip_proto = fresh.block.ip_proto := by
  refine ⟨store t (slot k) (t.entries (slot k) ++ [ip_ht_insert fresh k none]),
    ip_ht_insert fresh k none, ?_, ?_, rfl, rfl, rfl⟩
  · rw [ip_ht_set_eq, set_chain_absent fresh k _ _ habs]
    rfl
  · rw [ip_ht_get_eq, store_same, get_chain_append k _ _ habs]
    simp [ip_ht_get_chain, ip_ht_insert]

/-- C17, as the code has it: `ip_ht_insert` assigns `value` only when a record is
given, so the entry that `ip_ht_set` creates without a record has whatever the
allocated block held in that field.  With the block of `sample_fresh`, the entry for
address 5 on the empty table has a one-node list, and the `ip_ht_del` that follows
leaves the entry in the table. -/
theorem ip_ht_set_without_record_keeps_block :
    (ip_ht_set ip_ht_create 5 none sample_fresh).bind (fun t => ip_ht_get t 5) =
      some ⟨9, 3, 5, [⟨1, 2, 3⟩]⟩ ∧
    ((ip_ht_set ip_ht_create 5 none sample_fresh).bind (fun t => ip_ht_del t 5)).bind
      (fun t => ip_ht_get t 5) = some ⟨9, 3, 5, [⟨1, 2, 3⟩]⟩ := by
  decide

/-! ## Other keys under `ip_ht_set` -/

/-- C18: `ip_ht_set` on key `k` with a record succeeds, and for every other key `k2`,
in the same bucket or not, `ip_ht_get` returns afterwards what it returned before:
null if it was null, else the entry with the same key, id, tag and record list. -/
theorem ip_ht_set_keeps_other_keys (t : ip_ht_t) (k : Nat) (r : tcp_node_t)
    (fresh : fresh_t) (k2 : Nat) (hne : k2 ≠ k) :
    ∃ t2, ip_ht_set t k (some r) fresh = some t2 ∧ ip_ht_get t2 k2 = ip_ht_get t k2 := by
  obtain ⟨l2, hl2⟩ := set_chain_total fresh k r (t.entries (slot k))
  have hset : ip_ht_set t k (some r) fresh = some (store t (slot k) l2) := by
    rw [ip_ht_set_eq, hl2]
    rfl
  exact ⟨_, hset, ip_ht_set_get_other t k (some r) fresh _ k2 hset hne⟩

/-- Witness for C18: addresses 168 and 293 share bucket 104 of `sample_table`; a
record is attached to 168. -/
theorem ip_ht_set_keeps_other_keys_witness :
    (293 : Nat) ≠ 168 ∧ slot 293 = slot 168 ∧
    ∃ t2, ip_ht_set sample_table 168 (some ⟨17, 5, 161⟩) sample_fresh = some t2 ∧
      ip_ht_get t2 293 = ip_ht_get sample_table 293 :=
  ⟨by decide, by decide,
    ip_ht_set_keeps_other_keys sample_table 168 ⟨17, 5, 161⟩ sample_fresh 293 (by decide)⟩

/-! ## The position tests of `ip_ht_del` -/

theorem del_chain_absent (k : Nat) (l : List ip_lookup_t) (idx : Nat)
    (h : ∀ x ∈ l, x.key ≠ k) : ip_ht_del_chain k idx l = some l := by
  have := del_chain_skip k idx l [] h
  simpa [ip_ht_del_chain] using this

/-- C20: the four position tests of `ip_ht_del` cover every case, for every value of
the counter, so the `free(entry)` after them is never reached (the walk never has the
result `none`); `ip_ht_del` either leaves the table as it is or unlinks the first
entry with the key, and it unlinks, and frees, only an entry whose record list is
empty. -/
theorem ip_ht_del_tests_exhaustive (t : ip_ht_t) (k : Nat) :
    (∀ idx l, ip_ht_del_chain k idx l ≠ none) ∧
    ∃ t2, ip_ht_del t k = some t2 ∧
      (t2 = t ∨ ∃ pre e post, t.entries (slot k) = pre ++ e :: post ∧ e.key = k ∧
        (∀ x ∈ pre, x.key ≠ k) ∧ e.value = [] ∧ t2 = store t (slot k) (pre ++ post)) := by
  constructor
  · intro idx l hnone
    obtain ⟨l2, hl2⟩ := del_chain_total k l idx
    rw [hl2] at hnone
    exact Option.noConfusion hnone
  · cases hg : ip_ht_get_chain k (t.entries (slot k)) with
    | none =>
      have habs := (get_chain_none_iff k _).mp hg
      refine ⟨t, ?_, Or.inl rfl⟩
      rw [ip_ht_del_eq, del_chain_absent k _ 0 habs]
      simp [store_self]
    | some e =>
      obtain ⟨pre, post, hl, hk, hpre⟩ := (get_chain_some_iff k _ e).mp hg
      by_cases hv : e.value = []
      · refine ⟨store t (slot k) (pre ++ post), ?_,
          Or.inr ⟨pre, e, post, hl, hk, hpre, hv, rfl⟩⟩
        rw [ip_ht_del_eq, hl, del_chain_skip k 0 pre _ hpre, del_chain_at_match k _ e post hk]
        simp [hv]
      · refine ⟨t, ?_, Or.inl rfl⟩
        rw [ip_ht_del_eq, hl, del_chain_skip k 0 pre _ hpre, del_chain_at_match k _ e post hk]
        simp only [hv, if_false, Option.map_some', Option.some.injEq]
        rw [← hl]
        exact store_self t (slot k)

/-! ## An entry created with an unknown tag -/

theorem del_of_get_nonempty (t : ip_ht_t) (k : Nat) (e : ip_lookup_t)
    (hget : ip_ht_get t k = some e) (hne : e.value ≠ []) : ip_ht_del t k = some t := by
  rw [ip_ht_get_eq] at hget
  obtain ⟨pre, post, hl, hk, hpre⟩ := (get_chain_some_iff k _ e).mp hget
  rw [ip_ht_del_eq, hl, del_chain_skip k 0 pre _ hpre, del_chain_at_match k _ e post hk]
  simp only [hne, if_false, Option.map_some', Option.some.injEq]
  rw [← hl]
  exact store_self t (slot k)

theorem set_list_unknown (v : Option tcp_node_t) (p : Nat) (l : List tcp_node_t)
    (hp : ¬ (p = 6 ∨ p = 17)) : ip_ht_set_list v p l = some l := by
  cases l with
  | nil => rfl
  | cons a l =>
    cases l with
    | nil => simp [ip_ht_set_list, hp]
    | cons n rest => simp [ip_ht_set_list, hp]

theorem set_of_get_unknown (t : ip_ht_t) (k : Nat) (e : ip_lookup_t)
    (v : Option tcp_node_t) (fresh : fresh_t) (hget : ip_ht_get t k = some e)
    (hne : e.value ≠ []) (hp : ¬ (e.ip_proto = 6 ∨ e.ip_proto = 17)) :
    ip_ht_set t k v fresh = some t := by
  rw [ip_ht_get_eq] at hget
  obtain ⟨pre, post, hl, hk, hpre⟩ := (get_chain_some_iff k _ e).mp hget
  obtain ⟨tag, id, key, value⟩ := e
  cases value with
  | nil => exact absurd rfl hne
  | cons n rest =>
    have h1 : ip_ht_set_chain fresh k v (⟨tag, id, key, n :: rest⟩ :: post) =
        some (⟨tag, id, key, n :: rest⟩ :: post) := by
      simp only [] at hk
      simp [ip_ht_set_chain, hk, set_list_unknown v tag (n :: rest) hp]
    rw [ip_ht_set_eq, hl, set_chain_found fresh k v pre _ hpre, h1]
    simp only [Option.map_some', Option.some.injEq]
    rw [← hl]
    exact store_self t (slot k)

theorem del_list_entry_unknown (e : ip_lookup_t) (proto port : Nat)
    (hp : ¬ (e.ip_proto = 6 ∨ e.ip_proto = 17)) : ip_ht_del_list_entry e proto port = e := by
  apply del_list_entry_noop
  intro x hx
  obtain ⟨tag, id, key, value⟩ := e
  cases value with
  | nil => simp [ip_ht_dump_entry, ip_ht_dump_list] at hx
  | cons n rest => simp [ip_ht_dump_entry, ip_ht_dump_list, hp] at hx

theorem call_keeps_unknown (c : call_t) (t t2 : ip_ht_t) (k : Nat) (e : ip_lookup_t)
    (hget : ip_ht_get t k = some e) (hne : e.value ≠ [])
    (hp : ¬ (e.ip_proto = 6 ∨ e.ip_proto = 17)) (h : c.run t = some t2) :
    ip_ht_get t2 k = some e := by
  cases c with
  | set key value fresh =>
    by_cases hk : k = key
    · subst hk
      have h2 : ip_ht_set t k value fresh = some t2 := h
      rw [set_of_get_unknown t k e value fresh hget hne hp] at h2
      rw [← Option.some.inj h2]
      exact hget
    · rw [ip_ht_set_get_other t key value fresh t2 k h hk]
      exact hget
  | del key =>
    by_cases hk : k = key
    · subst hk
      have h2 : ip_ht_del t k = some t2 := h
      rw [del_of_get_nonempty t k e hget hne] at h2
      rw [← Option.some.inj h2]
      exact hget
    · rw [ip_ht_del_get_other t key t2 k h hk]
      exact hget
  | del_list key proto port =>
    simp only [call_t.run, Option.some.injEq] at h
    rw [← h]
    by_cases hk : k = key
    · subst hk
      rw [ip_ht_del_list_at_get_same, hget]
      simp only [ip_ht_del_list, del_list_entry_unknown e proto port hp]
    · rw [ip_ht_del_list_at_get_other t key proto port k hk]
      exact hget

theorem calls_keep_unknown (cs : List call_t) (t t2 : ip_ht_t) (k : Nat) (e : ip_lookup_t)
    (hget : ip_ht_get t k = some e) (hne : e.value ≠ [])
    (hp : ¬ (e.ip_proto = 6 ∨ e.ip_proto = 17)) (h : run_calls cs t = some t2) :
    ip_ht_get t2 k = some e := by
  induction cs generalizing t with
  | nil =>
    simp only [run_calls, Option.some.injEq] at h
    rw [← h]
    exact hget
  | cons c cs ih =>
    simp only [run_calls] at h
    cases hc : c.run t with
    | none => simp [hc] at h
    | some t1 =>
      simp only [hc] at h
      exact ih t1 (call_keeps_unknown c t t1 k e hget hne hp hc) h

/-- C19: for a key `k` without an entry and a record `r` whose first byte is neither 6
nor 17, `ip_ht_set` creates the entry with `r` as its list and that byte as its tag.
The dump walk then prints nothing for the entry; `ip_ht_del_list` leaves it as it is
for every protocol and port; `ip_ht_set` on `k`, with or without a record, leaves the
table as it is; `ip_ht_del` of `k` is rejected; and after any further calls that
return, `ip_ht_get` still returns this same entry. -/
theorem ip_ht_set_unknown_tag_sticks (t : ip_ht_t) (k : Nat) (r : tcp_node_t)
    (fresh : fresh_t) (habs : ∀ x ∈ t.entries (slot k), x.key ≠ k)
    (hr : ¬ (r.ip_proto = 6 ∨ r.ip_proto = 17)) :
    ∃ t1 e1, ip_ht_set t k (some r) fresh = some t1 ∧ ip_ht_get t1 k = some e1 ∧
      e1.value = [r] ∧ e1.ip_proto = r.ip_proto ∧
      ip_ht_dump_entry e1 = [] ∧
      (∀ proto port, ip_ht_del_list (some e1) proto port = some e1) ∧
      (∀ v f, ip_ht_set t1 k v f = some t1) ∧
      ip_ht_del t1 k = some t1 ∧
      ∀ cs t2, run_calls cs t1 = some t2 → ip_ht_get t2 k = some e1 := by
  have hset : ip_ht_set t k (some r) fresh =
      some (store t (slot k) (t.entries (slot k) ++ [ip_ht_insert fresh k (some r)])) := by
    rw [ip_ht_set_eq, set_chain_absent fresh k _ _ habs]
    rfl
  have hget : ip_ht_get (store t (slot k)
      (t.entries (slot k) ++ [ip_ht_insert fresh k (some r)])) k =
      some (ip_ht_insert fresh k (some r)) := by
    rw [ip_ht_get_eq, store_same, get_chain_append k _ _ habs]
    simp [ip_ht_get_chain, ip_ht_insert]
  have hne : (ip_ht_insert fresh k (some r)).value ≠ [] := by simp [ip_ht_insert]
  have hp : ¬ ((ip_ht_insert fresh k (some r)).ip_proto = 6 ∨
      (ip_ht_insert fresh k (some r)).ip_proto = 17) := hr
  refine ⟨_, _, hset, hget, rfl, rfl, ?_, ?_, ?_, ?_, ?_⟩
  · simp [ip_ht_dump_entry, ip_ht_dump_list, ip_ht_insert, hr]
  · intro proto port
    simp only [ip_ht_del_list, del_list_entry_unknown _ proto port hp]
  · intro v f
    exact set_of_get_unknown _ k _ v f hget hne hp
  · exact del_of_get_nonempty _ k _ hget hne
  · intro cs t2 h
    exact calls_keep_unknown cs _ t2 k _ hget hne hp h

/-- Witness for C19: a record with tag 1 for the new address 302 of `sample_table`. -/
theorem ip_ht_set_unknown_tag_sticks_witness :
    (∀ x ∈ sample_table.entries (slot 302), x.key ≠ 302) ∧
    ¬ ((1 : Nat) = 6 ∨ (1 : Nat) = 17) ∧
    ∃ t1 e1, ip_ht_set sample_table 302 (some ⟨1, 7, 8080⟩) sample_fresh = some t1 ∧
      ip_ht_get t1 302 = some e1 ∧
      e1.value = [⟨1, 7, 8080⟩] ∧ e1.ip_proto = 1 ∧
      ip_ht_dump_entry e1 = [] ∧
      (∀ proto port, ip_ht_del_list (some e1) proto port = some e1) ∧
      (∀ v f, ip_ht_set t1 302 v f = some t1) ∧
      ip_ht_del t1 302 = some t1 ∧
      ∀ cs t2, run_calls cs t1 = some t2 → ip_ht_get t2 302 = some e1 :=
  ⟨by decide, by decide,
    ip_ht_set_unknown_tag_sticks sample_table 302 ⟨1, 7, 8080⟩ sample_fresh
      (by decide) (by decide)⟩

/-! ## The table follows the bookkeeping -/

theorem get_chain_of_mem (l : List ip_lookup_t) (e : ip_lookup_t)
    (hnd : (chain_keys l).Nodup) (he : e ∈ l) : ip_ht_get_chain e.key l = some e := by
  induction l with
  | nil => simp at he
  | cons a l ih =>
    simp only [chain_keys, List.map_cons, List.nodup_cons] at hnd
    rcases List.mem_cons.mp he with rfl | hmem
    · simp [ip_ht_get_chain]
    · have ha : a.key ≠ e.key := by
        intro h
        apply hnd.1
        rw [h]
        exact List.mem_map_of_mem _ hmem
      simp only [ip_ht_get_chain, ha, if_false]
      exact ih hnd.2 hmem

theorem get_of_mem (t : ip_ht_t) (hok : buckets_ok t) (i : Fin TABLE_SIZE)
    (e : ip_lookup_t) (he : e ∈ t.entries i) : ip_ht_get t e.key = some e := by
  obtain ⟨hnd, hhash⟩ := hok i
  have hs : slot e.key = i := Fin.ext (hhash e he)
  rw [ip_ht_get_eq, hs]
  exact get_chain_of_mem _ e hnd he

theorem dump_entry_nil (e : ip_lookup_t) (hv : e.value = []) : ip_ht_dump_entry e = [] := by
  simp [ip_ht_dump_entry, hv, ip_ht_dump_list]

theorem set_get_same (t : ip_ht_t) (k : Nat) (r : tcp_node_t) (fresh : fresh_t)
    (hr : r.ip_proto = 6 ∨ r.ip_proto = 17)
    (hwt : ∀ e, ip_ht_get t k = some e → well_tagged e.ip_proto e.value) :
    ∃ t2 e2, ip_ht_set t k (some r) fresh = some t2 ∧ ip_ht_get t2 k = some e2 ∧
      well_tagged e2.ip_proto e2.value ∧
      ip_ht_dump_entry e2 =
        ((ip_ht_get t k).map ip_ht_dump_entry).getD [] ++ [(r.ip_proto, r.id, r.port)] := by
  cases hg : ip_ht_get t k with
  | none =>
    rw [ip_ht_get_eq] at hg
    have habs := (get_chain_none_iff k _).mp hg
    refine ⟨store t (slot k) (t.entries (slot k) ++ [ip_ht_insert fresh k (some r)]),
      ip_ht_insert fresh k (some r), ?_, ?_, ?_, ?_⟩
    · rw [ip_ht_set_eq, set_chain_absent fresh k _ _ habs]
      rfl
    · rw [ip_ht_get_eq, store_same, get_chain_append k _ _ habs]
      simp [ip_ht_get_chain, ip_ht_insert]
    · simp [ip_ht_insert, well_tagged, hr]
    · simp [ip_ht_dump_entry, ip_ht_dump_list, ip_ht_insert, hr]
  | some e =>
    have hwe := hwt e hg
    rw [ip_ht_get_eq] at hg
    obtain ⟨pre, post, hl, hk, hpre⟩ := (get_chain_some_iff k _ e).mp hg
    cases hv : e.value with
    | nil =>
      refine ⟨store t (slot k) (pre ++ { e with ip_proto := r.ip_proto, value := [r] } :: post),
        { e with ip_proto := r.ip_proto, value := [r] }, ?_, ?_, ?_, ?_⟩
      · rw [ip_ht_set_eq, hl, set_chain_found fresh k _ pre _ hpre]
        simp [ip_ht_set_chain, hk, hv, hr]
      · rw [ip_ht_get_eq, store_same, get_chain_append k pre _ hpre]
        simp [ip_ht_get_chain, hk]
      · simp [well_tagged, hr]
      · simp only [Option.map_some', Option.getD_some, dump_entry_nil e hv, List.nil_append]
        simp [ip_ht_dump_entry, ip_ht_dump_list, hr]
    | cons n rest =>
      have hne : e.value ≠ [] := by simp [hv]
      obtain ⟨init, last, hval⟩ : ∃ init last, e.value = init ++ [last] :=
        ⟨e.value.dropLast, e.value.getLast hne, (List.dropLast_append_getLast hne).symm⟩
      rw [hval] at hwe
      have h1 : ip_ht_set_list (some r) e.ip_proto (n :: rest) =
          some (init ++ [{ last with ip_proto := r.ip_proto }, r]) := by
        rw [← hv, hval]
        exact set_list_snoc r init last e.ip_proto hwe
      refine ⟨store t (slot k)
          (pre ++ { e with value := init ++ [{ last with ip_proto := r.ip_proto }, r] } :: post),
        { e with value := init ++ [{ last with ip_proto := r.ip_proto }, r] }, ?_, ?_, ?_, ?_⟩
      · rw [ip_ht_set_eq, hl, set_chain_found fresh k _ pre _ hpre]
        simp [ip_ht_set_chain, hk, hv, h1]
      · rw [ip_ht_get_eq, store_same, get_chain_append k pre _ hpre]
        simp [ip_ht_get_chain, hk]
      · exact well_tagged_snoc r init last e.ip_proto hwe hr
      · simp only [Option.map_some', Option.getD_some, ip_ht_dump_entry]
        rw [hval]
        exact dump_list_snoc r init last e.ip_proto hwe hr

theorem del_get_same (t : ip_ht_t) (k : Nat) (hok : buckets_ok t) :
    ∃ t2, ip_ht_del t k = some t2 ∧
      (∀ e, ip_ht_get t2 k = some e → ip_ht_get t k = some e ∧ e.value ≠ []) ∧
      (ip_ht_get t2 k = none →
        ip_ht_get t k = none ∨ ∃ e, ip_ht_get t k = some e ∧ e.value = []) := by
  cases hg : ip_ht_get t k with
  | none =>
    have hg2 := hg
    rw [ip_ht_get_eq] at hg2
    have habs := (get_chain_none_iff k _).mp hg2
    refine ⟨t, ?_, ?_, ?_⟩
    · rw [ip_ht_del_eq, del_chain_absent k _ 0 habs]
      simp [store_self]
    · intro e he
      rw [hg] at he
      exact Option.noConfusion he
    · intro _
      exact Or.inl rfl
  | some e =>
    by_cases hv : e.value = []
    · have hg2 := hg
      rw [ip_ht_get_eq] at hg2
      obtain ⟨pre, post, hl, hk, hpre⟩ := (get_chain_some_iff k _ e).mp hg2
      have hnone : ip_ht_get (store t (slot k) (pre ++ post)) k = none := by
        rw [ip_ht_get_eq, store_same, get_chain_none_iff]
        intro x hx
        rcases List.mem_append.mp hx with hx | hx
        · exact hpre x hx
        · intro hxk
          have hnodup := (hok (slot k)).1
          rw [hl] at hnodup
          simp only [chain_keys, List.map_append, List.map_cons] at hnodup
          have h2 := (List.nodup_append.mp hnodup).2.1
          have h3 := (List.nodup_cons.mp h2).1
          apply h3
          rw [hk, ← hxk]
          exact List.mem_map_of_mem _ hx
      refine ⟨store t (slot k) (pre ++ post), ?_, ?_, ?_⟩
      · rw [ip_ht_del_eq, hl, del_chain_skip k 0 pre _ hpre, del_chain_at_match k _ e post hk]
        simp [hv]
      · intro e2 he2
        rw [hnone] at he2
        exact Option.noConfusion he2
      · intro _
        exact Or.inr ⟨e, rfl, hv⟩
    · refine ⟨t, del_of_get_nonempty t k e hg hv, ?_, ?_⟩
      · intro e2 he2
        rw [hg] at he2
        rw [← Option.some.inj he2]
        exact ⟨rfl, hv⟩
      · intro hn
        rw [hg] at hn
        exact Option.noConfusion hn

theorem tracks_congr (t : ip_ht_t) (A B : Nat → List (Nat × Nat × Nat))
    (h : ∀ k, A k = B k) (ht : tracks t A) : tracks t B := by
  have hAB : A = B := funext h
  rw [← hAB]
  exact ht

theorem tracks_create : tracks ip_ht_create (fun _ => []) := by
  refine ⟨buckets_ok_create, fun k => ⟨?_, fun _ => rfl⟩⟩
  intro e he
  simp [ip_ht_get, ip_ht_create] at he

theorem tracks_step (c : call_t) (t : ip_ht_t) (A : Nat → List (Nat × Nat × Nat))
    (hc : c.recognized) (ht : tracks t A) :
    ∃ t2, c.run t = some t2 ∧ tracks t2 (attached_step A c) := by
  obtain ⟨hok, hA⟩ := ht
  cases c with
  | set key value fresh =>
    cases value with
    | none => exact absurd hc (fun h => h)
    | some r =>
      have hr : r.ip_proto = 6 ∨ r.ip_proto = 17 := hc
      obtain ⟨t2, e2, hset, hget2, hwt2, hdump2⟩ :=
        set_get_same t key r fresh hr (fun e he => ((hA key).1 e he).1)
      refine ⟨t2, hset, buckets_ok_set t key (some r) fresh t2 hok hset, fun k => ?_⟩
      by_cases hk : k = key
      · subst hk
        have hold : ((ip_ht_get t k).map ip_ht_dump_entry).getD [] = A k := by
          cases hg : ip_ht_get t k with
          | none => simp [(hA k).2 hg]
          | some e => simp [((hA k).1 e hg).2]
        constructor
        · intro e he
          rw [hget2] at he
          rw [← Option.some.inj he]
          refine ⟨hwt2, ?_⟩
          rw [hdump2, hold]
          simp [attached_step]
        · intro hn
          rw [hget2] at hn
          exact Option.noConfusion hn
      · rw [ip_ht_set_get_other t key (some r) fresh t2 k hset hk]
        simpa [attached_step, hk] using hA k
  | del key =>
    obtain ⟨t2, hdel, hsome, hnone⟩ := del_get_same t key hok
    refine ⟨t2, hdel, buckets_ok_del t key t2 hok hdel, fun k => ?_⟩
    by_cases hk : k = key
    · subst hk
      constructor
      · intro e he
        exact (hA k).1 e (hsome e he).1
      · intro hn
        rcases hnone hn with hg | ⟨e, hg, hv⟩
        · exact (hA k).2 hg
        · have := ((hA k).1 e hg).2
          rw [dump_entry_nil e hv] at this
          simpa [attached_step] using this.symm
    · rw [ip_ht_del_get_other t key t2 k hdel hk]
      exact hA k
  | del_list key proto port =>
    refine ⟨ip_ht_del_list_at t key proto port, rfl,
      buckets_ok_del_list t key proto port hok, fun k => ?_⟩
    by_cases hk : k = key
    · subst hk
      rw [ip_ht_del_list_at_get_same]
      cases hg : ip_ht_get t k with
      | none =>
        constructor
        · intro e he
          exact Option.noConfusion he
        · intro _
          simp [attached_step, (hA k).2 hg]
      | some e =>
        obtain ⟨hwe, hde⟩ := (hA k).1 e hg
        constructor
        · intro e2 he2
          simp only [ip_ht_del_list, Option.some.injEq] at he2
          rw [← he2]
          refine ⟨del_list_entry_well_tagged e proto port hwe, ?_⟩
          rw [del_list_entry_dump, hde]
          simp [attached_step]
        · intro hn
          exact Option.noConfusion hn
    · rw [ip_ht_del_list_at_get_other t key proto port k hk]
      simpa [attached_step, hk] using hA k

theorem tracks_run (cs : List call_t) (t : ip_ht_t) (A : Nat → List (Nat × Nat × Nat))
    (hcs : ∀ c ∈ cs, c.recognized) (ht : tracks t A) :
    ∃ t2, run_calls cs t = some t2 ∧ tracks t2 (attached_after cs A) := by
  induction cs generalizing t A with
  | nil => exact ⟨t, rfl, ht⟩
  | cons c cs ih =>
    obtain ⟨t1, hrun, ht1⟩ := tracks_step c t A (hcs c (by simp)) ht
    obtain ⟨t2, hrun2, ht2⟩ := ih t1 (attached_step A c) (fun c2 hc2 => hcs c2 (by simp [hc2])) ht1
    refine ⟨t2, ?_, ht2⟩
    simp only [run_calls, hrun]
    exact hrun2

/-- C15: every sequence of calls from the empty table in which each `ip_ht_set` hands
over a record with first byte 6 or 17, with `ip_ht_del` and `ip_ht_del_list` calls
anywhere, runs through, and in the table reached every entry has a well tagged list:
the entry's tag and each node's first byte, up to the node before the last, are 6 or
17, and they are the protocol with which the first record, respectively the record
after the node, was handed to `ip_ht_set`.  So a walk never meets an unknown tag, the
dump walk covers the whole list, and it prints each record with the protocol, id and
port it was attached with, in the order attached. -/
theorem tag_chain_invariant (cs : List call_t) (hcs : ∀ c ∈ cs, c.recognized) :
    ∃ t, run_calls cs ip_ht_create = some t ∧
      ∀ i, ∀ e ∈ t.entries i,
        ip_ht_get t e.key = some e ∧
        well_tagged e.ip_proto e.value ∧
        ip_ht_dump_entry e = attached_after cs (fun _ => []) e.key ∧
        (ip_ht_dump_entry e).length = e.value.length := by
  obtain ⟨t, hrun, hok, hA⟩ := tracks_run cs ip_ht_create (fun _ => []) hcs tracks_create
  refine ⟨t, hrun, fun i e he => ?_⟩
  have hget := get_of_mem t hok i e he
  obtain ⟨hwt, hd⟩ := (hA e.key).1 e hget
  exact ⟨hget, hwt, hd, dump_list_length _ _ hwt⟩

/-- Witness for C15: `tagged_calls` attaches five records to two addresses and removes
three of them. -/
theorem tag_chain_invariant_witness :
    (∀ c ∈ tagged_calls, c.recognized) ∧
    ∃ t, run_calls tagged_calls ip_ht_create = some t ∧
      ∀ i, ∀ e ∈ t.entries i,
        ip_ht_get t e.key = some e ∧
        well_tagged e.ip_proto e.value ∧
        ip_ht_dump_entry e = attached_after tagged_calls (fun _ => []) e.key ∧
        (ip_ht_dump_entry e).length = e.value.length :=
  ⟨by decide, tag_chain_invariant tagged_calls (by decide)⟩

/-! ## Seeding, then draining -/

theorem run_calls_append (cs1 cs2 : List call_t) (t : ip_ht_t) :
    run_calls (cs1 ++ cs2) t = (run_calls cs1 t).bind (run_calls cs2) := by
  induction cs1 generalizing t with
  | nil => rfl
  | cons c cs ih =>
    simp only [List.cons_append, run_calls]
    cases c.run t with
    | none => rfl
    | some t1 => exact ih t1

theorem seeded_snoc (ys : List seed_t) (x : seed_t) (k : Nat) :
    seeded (ys ++ [x]) k =
      attached_step (seeded ys) (.set x.address (some x.record) x.fresh) k := by
  by_cases hk : k = x.address
  · simp [seeded, attached_step, List.filter_append, hk]
  · have hk2 : ¬ x.address = k := fun h => hk h.symm
    simp [seeded, attached_step, List.filter_append, hk, hk2]

theorem seeded_cons (x : seed_t) (xs : List seed_t) (k : Nat) :
    seeded xs k =
      attached_step (seeded (x :: xs))
        (.del_list x.address x.record.ip_proto x.record.port) k := by
  by_cases hk : k = x.address
  · simp [seeded, attached_step, hk, List.eraseP_cons, is_record]
  · have hk2 : ¬ x.address = k := fun h => hk h.symm
    simp [seeded, attached_step, hk, hk2]

theorem entry_has_records (t : ip_ht_t) (A : Nat → List (Nat × Nat × Nat)) (k : Nat)
    (e : ip_lookup_t) (ht : tracks t A) (hget : ip_ht_get t k = some e)
    (hne : e.value ≠ []) : A k ≠ [] := by
  obtain ⟨hwt, hd⟩ := (ht.2 k).1 e hget
  intro hA
  have hlen := dump_list_length _ _ hwt
  simp only [ip_ht_dump_entry] at hd
  rw [hd, hA] at hlen
  exact hne (List.length_eq_zero.mp hlen.symm)

theorem seed_run (xs : List seed_t) (ys : List seed_t) (t : ip_ht_t)
    (hxs : ∀ x ∈ xs, x.record.ip_proto = 6 ∨ x.record.ip_proto = 17)
    (ht : tracks t (seeded ys))
    (hfull : ∀ k e, ip_ht_get t k = some e → seeded ys k ≠ []) :
    ∃ t2, run_calls (seed_calls xs) t = some t2 ∧ tracks t2 (seeded (ys ++ xs)) ∧
      ∀ k e, ip_ht_get t2 k = some e → seeded (ys ++ xs) k ≠ [] := by
  induction xs generalizing ys t with
  | nil =>
    refine ⟨t, rfl, ?_, ?_⟩
    · rw [List.append_nil]; exact ht
    · rw [List.append_nil]; exact hfull
  | cons x xs ih =>
    have hx : x.record.ip_proto = 6 ∨ x.record.ip_proto = 17 := hxs x (by simp)
    obtain ⟨t1, hrun1, ht1⟩ :=
      tracks_step (.set x.address (some x.record) x.fresh) t (seeded ys) hx ht
    have ht1b : tracks t1 (seeded (ys ++ [x])) :=
      tracks_congr t1 _ _ (fun k => (seeded_snoc ys x k).symm) ht1
    have hfull1 : ∀ k e, ip_ht_get t1 k = some e → seeded (ys ++ [x]) k ≠ [] := by
      intro k e he
      by_cases hk : k = x.address
      · simp [seeded, List.filter_append, hk]
      · have hset : ip_ht_set t x.address (some x.record) x.fresh = some t1 := hrun1
        rw [ip_ht_set_get_other t x.address _ x.fresh t1 k hset hk] at he
        have := hfull k e he
        have hk2 : ¬ x.address = k := fun h => hk h.symm
        simpa [seeded, List.filter_append, hk2] using this
    obtain ⟨t2, hrun2, ht2, hfull2⟩ :=
      ih (ys ++ [x]) t1 (fun y hy => hxs y (by simp [hy])) ht1b hfull1
    have happ : ys ++ [x] ++ xs = ys ++ x :: xs := by simp
    rw [happ] at ht2 hfull2
    refine ⟨t2, ?_, ht2, hfull2⟩
    simp only [seed_calls, run_calls, hrun1]
    exact hrun2

theorem drain_run (xs : List seed_t) (t : ip_ht_t) (ht : tracks t (seeded xs))
    (hfull : ∀ k e, ip_ht_get t k = some e → seeded xs k ≠ []) :
    ∃ t2, run_calls (drain_calls xs) t = some t2 ∧ tracks t2 (seeded []) ∧
      ∀ k e, ip_ht_get t2 k = some e → seeded [] k ≠ [] := by
  induction xs generalizing t with
  | nil => exact ⟨t, rfl, ht, hfull⟩
  | cons x xs ih =>
    obtain ⟨t1, hrun1, ht1⟩ :=
      tracks_step (.del_list x.address x.record.ip_proto x.record.port) t _ trivial ht
    have ht1b : tracks t1 (seeded xs) :=
      tracks_congr t1 _ _ (fun k => (seeded_cons x xs k).symm) ht1
    have ht1eq : t1 = ip_ht_del_list_at t x.address x.record.ip_proto x.record.port := by
      simp only [call_t.run, Option.some.injEq] at hrun1
      exact hrun1.symm
    obtain ⟨t2, hdel, hsome, -⟩ := del_get_same t1 x.address ht1b.1
    obtain ⟨t2b, hrun2, ht2⟩ := tracks_step (.del x.address) t1 (seeded xs) trivial ht1b
    have ht2eq : t2b = t2 := by
      have h1 : ip_ht_del t1 x.address = some t2b := hrun2
      rw [hdel] at h1
      exact (Option.some.inj h1).symm
    subst ht2eq
    have ht2b : tracks t2b (seeded xs) := ht2
    have hfull2 : ∀ k e, ip_ht_get t2b k = some e → seeded xs k ≠ [] := by
      intro k e he
      by_cases hk : k = x.address
      · subst hk
        exact entry_has_records t2b (seeded xs) _ e ht2b he (hsome e he).2
      · rw [ip_ht_del_get_other t1 x.address t2b k hdel hk, ht1eq,
          ip_ht_del_list_at_get_other t x.address _ _ k hk] at he
        have := hfull k e he
        have hk2 : ¬ x.address = k := fun h => hk h.symm
        simpa [seeded, hk2] using this
    obtain ⟨t3, hrun3, ht3, hfull3⟩ := ih t2b ht2b hfull2
    refine ⟨t3, ?_, ht3, hfull3⟩
    simp only [drain_calls, run_calls, hrun1, hrun2]
    exact hrun3

/-- C13: for every sequence of seeding steps with protocols 6 or 17, from the table
`ip_ht_create` returns, one `ip_ht_set` per step and then, per step in the same order,
`ip_ht_del_list(ip_ht_get(address), protocol, port)` followed by `ip_ht_del(address)`
all return, and in the table reached every one of the 128 buckets is empty. -/
theorem seed_then_drain_empty (xs : List seed_t)
    (hxs : ∀ x ∈ xs, x.record.ip_proto = 6 ∨ x.record.ip_proto = 17) :
    ∃ t, run_calls (seed_calls xs ++ drain_calls xs) ip_ht_create = some t ∧
      ∀ i, t.entries i = [] := by
  have h0 : ∀ k e, ip_ht_get ip_ht_create k = some e → seeded [] k ≠ [] := by
    intro k e he
    simp [ip_ht_get, ip_ht_create] at he
  obtain ⟨t1, hrun1, ht1, hfull1⟩ := seed_run xs [] ip_ht_create hxs tracks_create h0
  rw [List.nil_append] at ht1 hfull1
  obtain ⟨t2, hrun2, ht2, hfull2⟩ := drain_run xs t1 ht1 hfull1
  refine ⟨t2, ?_, fun i => ?_⟩
  · rw [run_calls_append, hrun1]
    exact hrun2
  · apply List.eq_nil_iff_forall_not_mem.mpr
    intro e he
    exact hfull2 e.key e (get_of_mem t2 ht2.1 i e he) rfl

theorem driver_iterations_recognized (l : List Nat) :
    ∀ x ∈ l.foldr (fun i acc => driver_iteration i ++ acc) [],
      x.record.ip_proto = 6 ∨ x.record.ip_proto = 17 := by
  induction l with
  | nil => simp
  | cons i l ih =>
    intro x hx
    simp only [List.foldr_cons, List.mem_append] at hx
    rcases hx with hx | hx
    · simp only [driver_iteration, List.mem_cons, List.mem_singleton, List.not_mem_nil,
        or_false] at hx
      rcases hx with rfl | rfl
      · exact Or.inr rfl
      · exact Or.inl rfl
    · exact ih x hx

theorem driver_seeds_recognized :
    ∀ x ∈ driver_seeds, x.record.ip_proto = 6 ∨ x.record.ip_proto = 17 :=
  driver_iterations_recognized (List.range 128)

/-- Witness for C13: the seeding steps of the driver, 128 iterations from address
`0x46827024` with ports `0x77 + (i % 15) * 55`, a UDP and a TCP record per iteration,
the address advancing by `i % 2`. -/
theorem seed_then_drain_empty_witness :
    (∀ x ∈ driver_seeds, x.record.ip_proto = 6 ∨ x.record.ip_proto = 17) ∧
    ∃ t, run_calls (seed_calls driver_seeds ++ drain_calls driver_seeds) ip_ht_create =
        some t ∧ ∀ i, t.entries i = [] :=
  ⟨driver_seeds_recognized, seed_then_drain_empty driver_seeds driver_seeds_recognized⟩

/-! ## Identifiers under deletion -/

theorem util_id_allocate_unmarked (bits : List Bool) (j : Nat) (bits2 : List Bool)
    (h : util_id_allocate bits = some (j, bits2)) : bits[j]? = some false := by
  induction bits generalizing j bits2 with
  | nil => simp [util_id_allocate] at h
  | cons b bits ih =>
    cases b with
    | false =>
      simp only [util_id_allocate, Option.some.injEq, Prod.mk.injEq] at h
      rw [← h.1]
      simp
    | true =>
      simp only [util_id_allocate] at h
      obtain ⟨r, hr, hjr⟩ := Option.map_eq_some'.mp h
      simp only [Prod.mk.injEq] at hjr
      rw [← hjr.1]
      simpa using ih r.1 r.2 hr

theorem set_present_any_fresh (t : ip_ht_t) (k : Nat) (v : Option tcp_node_t)
    (f1 f2 : fresh_t) (e : ip_lookup_t) (hget : ip_ht_get t k = some e) :
    ip_ht_set t k v f1 = ip_ht_set t k v f2 := by
  rw [ip_ht_get_eq] at hget
  obtain ⟨pre, post, hl, hk, hpre⟩ := (get_chain_some_iff k _ e).mp hget
  rw [ip_ht_set_eq, ip_ht_set_eq, hl, set_chain_found f1 k v pre _ hpre,
    set_chain_found f2 k v pre _ hpre]
  simp [ip_ht_set_chain, hk]

/-- C14, as the code has it: address 5 gets an entry with address identifier 0 and the
TCP record with identifier 0; `ip_ht_del_list` removes the record and `ip_ht_del` then
removes the entry, both successfully, and afterwards identifier 0 is still marked in
the address pool and in the TCP pool, so the next address allocation hands out 1. -/
theorem deletion_leaves_identifier_marked :
    (state_set sample_state 5 (some ⟨6, 0, 80⟩) ⟨0, 0, 0, []⟩).bind
        (fun s => ip_ht_get s.hash_table 5) = some ⟨6, 0, 5, [⟨6, 0, 80⟩]⟩ ∧
    ip_ht_get sample_state_emptied.hash_table 5 = some ⟨0, 0, 5, []⟩ ∧
    (state_del sample_state_emptied 5).map (fun s => ip_ht_get s.hash_table 5) = some none ∧
    sample_state_deleted.global_keystore.ip_bit_array = [true, false, false, false] ∧
    sample_state_deleted.global_keystore.tcp_bit_array = [true, false, false, false] ∧
    (util_id_allocate sample_state_deleted.global_keystore.ip_bit_array).map (fun r => r.1) =
      some 1 := by
  decide

/-- C14 amended: `ip_ht_del` and `ip_ht_del_list` leave the three identifier pools as
they are, whether or not they remove a node; an identifier marked before the call is
marked after it and is not what the next allocation from that pool returns. -/
theorem deletion_keeps_pools (s s2 : state_t) (key proto port : Nat)
    (hdel : state_del s key = some s2) :
    s2.global_keystore = s.global_keystore ∧
    (state_del_list s key proto port).global_keystore = s.global_keystore ∧
    ∀ i, s.global_keystore.ip_bit_array[i]? = some true →
      s2.global_keystore.ip_bit_array[i]? = some true ∧
      ∀ j bits, util_id_allocate s2.global_keystore.ip_bit_array = some (j, bits) → j ≠ i := by
  obtain ⟨t, -, hs2⟩ := Option.map_eq_some'.mp hdel
  have hks : s2.global_keystore = s.global_keystore := by
    rw [← hs2]
  refine ⟨hks, rfl, ?_⟩
  intro i hi
  rw [hks]
  refine ⟨hi, ?_⟩
  intro j bits hj hji
  have := util_id_allocate_unmarked _ j bits hj
  rw [hji, hi] at this
  exact absurd this (by decide)

/-- Witness for the amended C14: `ip_ht_del` removes the entry of address 5, whose
identifier 0 is marked in the address pool. -/
theorem deletion_keeps_pools_witness :
    state_del sample_state_emptied 5 = some sample_state_deleted ∧
    sample_state_deleted.global_keystore = sample_state_emptied.global_keystore ∧
    (state_del_list sample_state_emptied 5 6 80).global_keystore =
      sample_state_emptied.global_keystore ∧
    ∀ i, sample_state_emptied.global_keystore.ip_bit_array[i]? = some true →
      sample_state_deleted.global_keystore.ip_bit_array[i]? = some true ∧
      ∀ j bits, util_id_allocate sample_state_deleted.global_keystore.ip_bit_array =
        some (j, bits) → j ≠ i :=
  ⟨rfl, deletion_keeps_pools sample_state_emptied sample_state_deleted 5 6 80 rfl⟩

/-! ## The driver as written -/

theorem main_drain_evaluated :
    (run_calls (seed_calls driver_seeds ++ main_drain_calls) ip_ht_create).map
      (fun t => (List.finRange TABLE_SIZE).all (fun i => (t.entries i).isEmpty)) =
      some true := by
  set_option maxRecDepth 1000000 in decide

theorem main_leaves_table_empty :
    ∃ t, run_calls (seed_calls driver_seeds ++ main_drain_calls) ip_ht_create = some t ∧
      ∀ i, t.entries i = [] := by
  have h := main_drain_evaluated
  cases hrun : run_calls (seed_calls driver_seeds ++ main_drain_calls) ip_ht_create with
  | none => simp [hrun] at h
  | some t =>
    refine ⟨t, rfl, fun i => ?_⟩
    simp only [hrun, Option.map_some', Option.some.injEq, List.all_eq_true] at h
    exact List.isEmpty_iff.mp (h i (List.mem_finRange i))

end Hashtable
